import Mathlib

/-
Verification development for the students-mentiby progress tracker.

Shallow embedding conventions:
* Calendar dates are abstracted as integer day numbers (`Int`).  The
  JavaScript code turns a `completed_at` string into a calendar date via
  `new Date(s).toDateString()` (AdvancedFeatures) or
  `new Date(s).toISOString().split('T')[0]` (dashboard utils); both are
  modelled as producing the day number of the timestamp.  A present but
  unparsable string produces the JavaScript value `Invalid Date`,
  modelled by `DateVal.invalid`; `toISOString` on such a value throws,
  modelled by `Except.error`.
* `completed_at : Option DateVal`: `none` models a missing / null /
  empty (falsy) field, `some (DateVal.valid d)` a parsable timestamp on
  day `d`, `some DateVal.invalid` a present but unparsable string.
* JavaScript numbers are idealized as exact arithmetic: counts are `Nat`,
  `Math.round((completed / total) * 100)` is exact rational arithmetic
  followed by floor of `x + 1/2` (the ECMAScript `Math.round` rule).
* The unbounded `while` loops that walk backwards one day at a time are
  given explicit fuel; the fuel chosen (list length, as every streak day
  needs a distinct record) is proved sufficient by the characterization
  lemmas.
-/

namespace Mentiby

/-- Question difficulty, the enum `question_difficulty` of the schema. -/
inductive Difficulty
  | Easy
  | Medium
  | Hard
deriving DecidableEq, Repr

/-- Result of parsing a present `completed_at` string with `new Date`:
either a calendar day or the JavaScript `Invalid Date` value. -/
inductive DateVal
  | valid (day : Int)
  | invalid
deriving DecidableEq, Repr

/-- The `Question` record shape used by the dashboard components. -/
structure Question where
  id : String
  sheet_id : String
  title : String
  topic : String
  tags : List String
  difficulty : Difficulty
deriving DecidableEq, Repr

/-- The `UserProgress` record shape used by the dashboard components. -/
structure UserProgress where
  question_id : String
  completed : Bool
  marked_for_revision : Bool
  note : Option String
  time_spent : Option Nat
  completed_at : Option DateVal
deriving DecidableEq, Repr

/-- The date strings collected by `calculateStreaks` (AdvancedFeatures):
`userProgress.filter(p => p.completed && p.completed_at).map(p => new
Date(p.completed_at).toDateString())`. -/
def dateStringsOf (userProgress : List UserProgress) : List DateVal :=
  userProgress.filterMap (fun p => if p.completed then p.completed_at else none)

/-- Helper for first-occurrence deduplication: drop every element already
seen, in one structural pass. -/
def dedupKeepFirstAux {α : Type} [DecidableEq α] (seen : List α) : List α → List α
  | [] => []
  | a :: rest =>
    if a ∈ seen then dedupKeepFirstAux seen rest
    else a :: dedupKeepFirstAux (a :: seen) rest

/-- The `filter((date, index, arr) => arr.indexOf(date) === index)`
deduplication step: keeps the first occurrence of each value. -/
def dedupKeepFirst {α : Type} [DecidableEq α] (l : List α) : List α :=
  dedupKeepFirstAux [] l

/-- The sort comparator `(a, b) => new Date(b).getTime() - new
Date(a).getTime()`: `a` strictly precedes `b` when its date is strictly
later.  Comparisons involving `Invalid Date` give `NaN`, which the
ECMAScript sort treats as equal, so they never force a move. -/
def beforeD (a b : DateVal) : Bool :=
  match a, b with
  | .valid x, .valid y => decide (y < x)
  | _, _ => false

/-- Insert one element into an already sorted (descending) list. -/
def insertD (a : DateVal) : List DateVal → List DateVal
  | [] => [a]
  | b :: t => if beforeD b a then b :: insertD a t else a :: b :: t

/-- The `sort` call of `calculateStreaks`, descending by date. -/
def sortDates (l : List DateVal) : List DateVal :=
  l.foldr insertD []

/-- `completedDates` as computed by `calculateStreaks`: filtered, mapped
to dates, deduplicated, sorted descending. -/
def completedDates (userProgress : List UserProgress) : List DateVal :=
  sortDates (dedupKeepFirst (dateStringsOf userProgress))

/-- The current-streak `while` loop of `calculateStreaks`: starting at
day `d`, count consecutive days whose date is in `dates`.  Fuel bounds
the walk; `completedDates` has no duplicates so `dates.length` fuel is
enough (proved below). -/
def walkBack (dates : List DateVal) : Int → Nat → Nat
  | _, 0 => 0
  | d, f + 1 => if DateVal.valid d ∈ dates then walkBack dates (d - 1) f + 1 else 0

/-- The inner run of the longest-streak loop: `tempStreak` for the run
starting at the head of the remaining sorted date list.  A pair chains
only when both dates are valid and exactly one day apart (`dayDiff ===
1`; with an invalid date the difference is `NaN`). -/
def runLenFrom : List DateVal → Nat
  | [] => 0
  | [_] => 1
  | a :: b :: rest =>
    match a, b with
    | .valid x, .valid y => if x - y = 1 then 1 + runLenFrom (b :: rest) else 1
    | _, _ => 1

/-- The outer longest-streak loop: `longestStreak = Math.max(...)` over
the run starting at every index of the sorted date list. -/
def maxRunOf : List DateVal → Nat
  | [] => 0
  | d :: rest => max (runLenFrom (d :: rest)) (maxRunOf rest)

/-- The result record of `calculateStreaks` (AdvancedFeatures). -/
structure StreakData where
  currentStreak : Nat
  longestStreak : Nat
deriving DecidableEq, Repr

/-- `calculateStreaks` of AdvancedFeatures, with the ambient current day
passed explicitly (`new Date().toDateString()` = `today`,
`new Date(Date.now() - 86400000).toDateString()` = `today - 1`). -/
def calculateStreaks (today : Int) (userProgress : List UserProgress) : StreakData :=
  let dates := completedDates userProgress
  { currentStreak :=
      if DateVal.valid today ∈ dates ∨ DateVal.valid (today - 1) ∈ dates then
        walkBack dates (if DateVal.valid today ∈ dates then today else today - 1) dates.length
      else 0
    longestStreak := maxRunOf dates }

/-- One evaluation of the predicate inside the utils `calculateCurrentStreak`
and `getQuestionsCompletedToday`: `p.completed && p.completed_at && new
Date(p.completed_at).toISOString().split('T')[0] === dateStr`.  The `&&`
chain short-circuits on a false `completed` or a missing `completed_at`;
on a present unparsable string `toISOString` throws (`Except.error`). -/
def completedOnE (d : Int) (p : UserProgress) : Except Unit Bool :=
  if p.completed then
    match p.completed_at with
    | none => .ok false
    | some (.valid e) => .ok (decide (e = d))
    | some .invalid => .error ()
  else .ok false

/-- `userProgress.some(...)` with the fallible predicate above: scans in
order, stops at the first record that matches, propagates a throw. -/
def someOnE (d : Int) : List UserProgress → Except Unit Bool
  | [] => .ok false
  | p :: rest =>
    match completedOnE d p with
    | .error e => .error e
    | .ok true => .ok true
    | .ok false => someOnE d rest

/-- The `while (true)` loop of the utils `calculateCurrentStreak`,
with fuel. -/
def streakAuxE (l : List UserProgress) : Int → Nat → Except Unit Nat
  | _, 0 => .ok 0
  | d, f + 1 =>
    match someOnE d l with
    | .error e => .error e
    | .ok true =>
      match streakAuxE l (d - 1) f with
      | .error e => .error e
      | .ok n => .ok (n + 1)
    | .ok false => .ok 0

/-- The utils `calculateCurrentStreak` (dashboard utilities), with the
current day passed explicitly.  It anchors at `today` only and walks
backwards while each day has a completed record. -/
def calculateCurrentStreak (today : Int) (userProgress : List UserProgress) :
    Except Unit Nat :=
  streakAuxE userProgress today (userProgress.length + 1)

/-- The fold underlying the utils `getQuestionsCompletedToday`:
`userProgress.filter(pred).length` where the predicate can throw. -/
def countTodayE (today : Int) : List UserProgress → Except Unit Nat
  | [] => .ok 0
  | p :: rest =>
    match completedOnE today p with
    | .error e => .error e
    | .ok b =>
      match countTodayE today rest with
      | .error e => .error e
      | .ok n => .ok (if b then n + 1 else n)

/-- The utils `getQuestionsCompletedToday`, with the current day passed
explicitly. -/
def getQuestionsCompletedToday (today : Int) (userProgress : List UserProgress) :
    Except Unit Nat :=
  countTodayE today userProgress

/-- The raw completed total `userProgress.filter(p => p.completed).length`. -/
def completedCount (userProgress : List UserProgress) : Nat :=
  (userProgress.filter (fun p => p.completed)).length

/-- Specification-level activity predicate (spec 4.1): the user is active
on day `d` when some record has `completed = true` and a `completed_at`
whose calendar date is `d`. -/
def ActiveOn (l : List UserProgress) (d : Int) : Prop :=
  ∃ p ∈ l, p.completed = true ∧ p.completed_at = some (DateVal.valid d)

instance (l : List UserProgress) (d : Int) : Decidable (ActiveOn l d) := by
  unfold ActiveOn
  infer_instance

/-- Hypothesis ruling out present-but-unparsable timestamps on completed
records (the data the write paths actually produce). -/
def NoInvalid (l : List UserProgress) : Prop :=
  ∀ p ∈ l, p.completed = true → p.completed_at ≠ some DateVal.invalid

instance (l : List UserProgress) : Decidable (NoInvalid l) := by
  unfold NoInvalid
  infer_instance

/-- The ECMAScript `Math.round` on exact rationals: floor of `x + 1/2`
(halves round up, towards positive infinity). -/
def jsRound (x : ℚ) : ℤ :=
  Int.floor (x + 1 / 2)

/-- The utils `calculateCompletionRate(total, completed)`:
`total > 0 ? Math.round((completed / total) * 100) : 0`. -/
def calculateCompletionRate (total completed : ℤ) : ℤ :=
  if 0 < total then jsRound (((completed : ℚ) / (total : ℚ)) * 100) else 0

/-- Specification wording of the rounding mode: round half up, that is
the floor of `x + 1/2`. -/
def roundHalfUp (x : ℚ) : ℤ :=
  Int.floor (x + 1 / 2)

/-- The completion test shared by the difficulty and topic breakdowns:
`userProgress.some(p => p.question_id === q.id && p.completed)` (the
`find(...)` truthiness variant in ProgressCharts is the same test). -/
def isCompletedQ (userProgress : List UserProgress) (q : Question) : Bool :=
  userProgress.any (fun p => decide (p.question_id = q.id) && p.completed)

/-- Per-difficulty counters. -/
structure DiffCounts where
  total : Nat
  completed : Nat
deriving DecidableEq, Repr

/-- The fixed-shape result of `calculateDifficultyStats`: exactly the
three keys Easy, Medium, Hard. -/
structure DifficultyStats where
  Easy : DiffCounts
  Medium : DiffCounts
  Hard : DiffCounts
deriving DecidableEq, Repr

/-- One category of `calculateDifficultyStats`. -/
def diffCountsFor (questions : List Question) (userProgress : List UserProgress)
    (d : Difficulty) : DiffCounts :=
  { total := (questions.filter (fun q => decide (q.difficulty = d))).length
    completed := (questions.filter (fun q =>
      decide (q.difficulty = d) && isCompletedQ userProgress q)).length }

/-- The utils `calculateDifficultyStats` (identically inlined in
ProgressStats). -/
def calculateDifficultyStats (questions : List Question)
    (userProgress : List UserProgress) : DifficultyStats :=
  { Easy := diffCountsFor questions userProgress .Easy
    Medium := diffCountsFor questions userProgress .Medium
    Hard := diffCountsFor questions userProgress .Hard }

/-- Field access of `DifficultyStats` by difficulty. -/
def DifficultyStats.get (s : DifficultyStats) : Difficulty → DiffCounts
  | .Easy => s.Easy
  | .Medium => s.Medium
  | .Hard => s.Hard

/-- The overall completion rate inlined in ProgressStats:
`totalQuestions > 0 ? Math.round((completedQuestions / totalQuestions) *
100) : 0` with `completedQuestions = userProgress.filter(p =>
p.completed).length` and `totalQuestions = questions.length`. -/
def progressStatsOverallRate (questions : List Question)
    (userProgress : List UserProgress) : ℤ :=
  calculateCompletionRate (questions.length : ℤ) (completedCount userProgress : ℤ)

/-- One entry of the ProgressCharts topic breakdown. -/
structure TopicEntry where
  topic : String
  total : Nat
  completed : Nat
  percentage : ℤ
deriving DecidableEq, Repr

/-- The in-place increment performed on an existing topic entry:
`existingTopic.total++; if (isCompleted) existingTopic.completed++`. -/
def bumpEntry (c : Bool) (e : TopicEntry) : TopicEntry :=
  { e with
    total := e.total + 1
    completed := if c then e.completed + 1 else e.completed }

/-- Update the first entry carrying topic `t` (the entry `acc.find`
located; the accumulator never holds two entries with the same topic). -/
def updFirstEntry (t : String) (c : Bool) : List TopicEntry → List TopicEntry
  | [] => []
  | e :: rest =>
    if e.topic = t then bumpEntry c e :: rest else e :: updFirstEntry t c rest

/-- One step of the `questions.reduce` building `topicData`. -/
def topicStep (userProgress : List UserProgress) (acc : List TopicEntry)
    (q : Question) : List TopicEntry :=
  if acc.any (fun e => decide (e.topic = q.topic)) then
    updFirstEntry q.topic (isCompletedQ userProgress q) acc
  else
    acc ++ [{ topic := q.topic
              total := 1
              completed := if isCompletedQ userProgress q then 1 else 0
              percentage := 0 }]

/-- The accumulator after the `reduce`, before percentages are filled. -/
def topicDataRaw (questions : List Question) (userProgress : List UserProgress) :
    List TopicEntry :=
  questions.foldl (topicStep userProgress) []

/-- `topicData` of ProgressCharts: the reduce above followed by the
percentage pass `item.percentage = item.total > 0 ?
Math.round((item.completed / item.total) * 100) : 0`. -/
def topicData (questions : List Question) (userProgress : List UserProgress) :
    List TopicEntry :=
  (topicDataRaw questions userProgress).map (fun e =>
    { e with percentage := calculateCompletionRate (e.total : ℤ) (e.completed : ℤ) })

/-- Specification-level topic breakdown (spec 4.1): one entry per
distinct literal `Question.topic` value in insertion order of first
encounter, counting questions with that topic and the completed ones
among them, with the shared completion rate.  The declared `topics`
list of the Sheet is never consulted. -/
def topicDataSpec (questions : List Question) (userProgress : List UserProgress) :
    List TopicEntry :=
  (dedupKeepFirst (questions.map (fun q => q.topic))).map (fun t =>
    let total := (questions.filter (fun q => decide (q.topic = t))).length
    let comp := (questions.filter (fun q =>
      decide (q.topic = t) && isCompletedQ userProgress q)).length
    { topic := t
      total := total
      completed := comp
      percentage := calculateCompletionRate (total : ℤ) (comp : ℤ) })

/-- The specification-level topic accumulator before the percentage
pass (every entry still carries percentage 0, as pushed by the fold). -/
def topicDataSpecRaw (questions : List Question) (userProgress : List UserProgress) :
    List TopicEntry :=
  (dedupKeepFirst (questions.map (fun q => q.topic))).map (fun t =>
    { topic := t
      total := (questions.filter (fun q => decide (q.topic = t))).length
      completed := (questions.filter (fun q =>
        decide (q.topic = t) && isCompletedQ userProgress q)).length
      percentage := 0 })

/-- An evaluated achievement as built by `calculateAchievements`. -/
structure Achievement where
  id : String
  title : String
  description : String
  unlocked : Bool
  progress : Nat
  target : Nat
  category : String
deriving DecidableEq, Repr

/-- `userProgress.reduce((sum, p) => sum + (p.time_spent || 0), 0)`. -/
def totalTimeSpentOf (userProgress : List UserProgress) : Nat :=
  userProgress.foldl (fun s p => s + p.time_spent.getD 0) 0

/-- The per-difficulty completed count of `calculateAchievements`:
`userProgress.filter(p => { const question = questions.find(q => q.id ===
p.question_id); return p.completed && question?.difficulty === d }).length`. -/
def diffCompletedCount (questions : List Question)
    (userProgress : List UserProgress) (d : Difficulty) : Nat :=
  (userProgress.filter (fun p =>
    p.completed &&
      ((questions.find? (fun q => decide (q.id = p.question_id))).elim false
        (fun q => decide (q.difficulty = d))))).length

/-- `calculateAchievements` of AdvancedFeatures.  `longestStreak` is the
value the `streakData` component state holds at evaluation time; apart
from it the function is a pure pass over the inputs with no stored
unlock state. -/
def calculateAchievements (questions : List Question)
    (userProgress : List UserProgress) (longestStreak : Nat) : List Achievement :=
  let completedCnt := completedCount userProgress
  let totalTime := totalTimeSpentOf userProgress
  let easyCnt := diffCompletedCount questions userProgress .Easy
  let hardCnt := diffCompletedCount questions userProgress .Hard
  [ { id := "1", title := "First Steps"
      description := "Complete your first question"
      unlocked := decide (1 ≤ completedCnt)
      progress := min completedCnt 1, target := 1, category := "completion" }
  , { id := "2", title := "Getting Started"
      description := "Complete 10 questions"
      unlocked := decide (10 ≤ completedCnt)
      progress := min completedCnt 10, target := 10, category := "completion" }
  , { id := "3", title := "Century Club"
      description := "Complete 100 questions"
      unlocked := decide (100 ≤ completedCnt)
      progress := min completedCnt 100, target := 100, category := "completion" }
  , { id := "4", title := "Streak Master"
      description := "Maintain a 7-day streak"
      unlocked := decide (7 ≤ longestStreak)
      progress := min longestStreak 7, target := 7, category := "streak" }
  , { id := "5", title := "Easy Peasy"
      description := "Complete 50 Easy questions"
      unlocked := decide (50 ≤ easyCnt)
      progress := min easyCnt 50, target := 50, category := "difficulty" }
  , { id := "6", title := "Challenge Accepted"
      description := "Complete 25 Hard questions"
      unlocked := decide (25 ≤ hardCnt)
      progress := min hardCnt 25, target := 25, category := "difficulty" }
  , { id := "7", title := "Time Warrior"
      description := "Spend 50+ hours practicing"
      unlocked := decide (180000 ≤ totalTime)
      progress := min totalTime 180000, target := 180000, category := "time" } ]

/-- The metric each achievement definition names: total completed count
for the completion milestones, the longest streak for the streak one,
the per-difficulty completed counts, and the total time spent. -/
def metricValue (questions : List Question) (userProgress : List UserProgress)
    (longestStreak : Nat) (aid : String) : Nat :=
  if aid = "4" then longestStreak
  else if aid = "5" then diffCompletedCount questions userProgress .Easy
  else if aid = "6" then diffCompletedCount questions userProgress .Hard
  else if aid = "7" then totalTimeSpentOf userProgress
  else completedCount userProgress

/-- Does `big` start with `small` (character lists)? -/
def leadsWith : List Char → List Char → Bool
  | [], _ => true
  | _ :: _, [] => false
  | a :: as, b :: bs => decide (a = b) && leadsWith as bs

/-- Does `l` contain `needle` as a contiguous segment? -/
def hasSegment (needle : List Char) : List Char → Bool
  | [] => needle.isEmpty
  | c :: rest => leadsWith needle (c :: rest) || hasSegment needle rest

/-- JavaScript `hay.toLowerCase().includes(needle.toLowerCase())`. -/
def strHas (hay needle : String) : Bool :=
  hasSegment needle.toLower.data hay.toLower.data

/-- Rendering of the difficulty enum as the literal strings carried by
the records and the filter selections. -/
def difficultyToString : Difficulty → String
  | .Easy => "Easy"
  | .Medium => "Medium"
  | .Hard => "Hard"

/-- The filter state of the SearchAndFilter component: search term plus
the three select values (with the sentinel `all`). -/
structure FilterSpec where
  search : String
  difficulty : String
  topic : String
  status : String
deriving DecidableEq, Repr

/-- `matchesSearch` of `applyFilters`: case-insensitive match against
the title or any tag. -/
def matchesSearch (term : String) (q : Question) : Bool :=
  strHas q.title term || q.tags.any (fun tag => strHas tag term)

/-- `matchesDifficulty` of `applyFilters`. -/
def matchesDifficulty (sel : String) (q : Question) : Bool :=
  decide (sel = "all") || decide (difficultyToString q.difficulty = sel)

/-- `matchesTopic` of `applyFilters`. -/
def matchesTopic (sel : String) (q : Question) : Bool :=
  decide (sel = "all") || decide (q.topic = sel)

/-- `userProgress.find(p => p.question_id === question.id)`. -/
def findProgress (userProgress : List UserProgress) (qid : String) :
    Option UserProgress :=
  userProgress.find? (fun p => decide (p.question_id = qid))

/-- `matchesStatus` of `applyFilters`: `progress?.completed || false`
style tests on the first record found for the question, defaulting to
`true` for any other selection. -/
def matchesStatus (userProgress : List UserProgress) (sel : String)
    (q : Question) : Bool :=
  let progress := findProgress userProgress q.id
  if sel = "completed" then (progress.map (fun p => p.completed)).getD false
  else if sel = "pending" then !((progress.map (fun p => p.completed)).getD false)
  else if sel = "revision" then
    (progress.map (fun p => p.marked_for_revision)).getD false
  else true

/-- The filtering stage of `applyFilters` in SearchAndFilter (lines
38-58): one pass keeping the questions matching the conjunction of the
four predicates.  The subsequent sort permutes the kept questions but
does not change the set. -/
def applyFilters (questions : List Question) (userProgress : List UserProgress)
    (spec : FilterSpec) : List Question :=
  questions.filter (fun q =>
    matchesSearch spec.search q && matchesDifficulty spec.difficulty q &&
      matchesTopic spec.topic q && matchesStatus userProgress spec.status q)

/-- The utils `filterQuestionsByStatus`: `some(...)`-based tests. -/
def filterQuestionsByStatus (questions : List Question)
    (userProgress : List UserProgress) (status : String) : List Question :=
  if status = "completed" then
    questions.filter (fun q => isCompletedQ userProgress q)
  else if status = "pending" then
    questions.filter (fun q => !isCompletedQ userProgress q)
  else if status = "revision" then
    questions.filter (fun q =>
      userProgress.any (fun p => decide (p.question_id = q.id) && p.marked_for_revision))
  else questions

/-- The utils `filterQuestionsByDifficulty`. -/
def filterQuestionsByDifficulty (questions : List Question)
    (difficulty : String) : List Question :=
  if difficulty = "all" then questions
  else questions.filter (fun q => decide (difficultyToString q.difficulty = difficulty))

/-- The utils `filterQuestionsByTopic`. -/
def filterQuestionsByTopic (questions : List Question) (topic : String) :
    List Question :=
  if topic = "all" then questions
  else questions.filter (fun q => decide (q.topic = topic))

/-- `progress?.field || false` on an optional prior record. -/
def priorBool (prior : Option UserProgress) (f : UserProgress → Bool) : Bool :=
  (prior.map f).getD false

/-- The row produced by `toggleCompletion` in QuestionItem (part of the
`updateProgress` upsert payload merged with the prior record): the new
completion flag is the negation of `progress?.completed`, and
`completed_at` is set to the current timestamp exactly when completing,
cleared (`undefined`) when un-completing. -/
def rowToggleCompletion (qid : String) (prior : Option UserProgress)
    (now : Int) : UserProgress :=
  let newCompleted := !priorBool prior (fun p => p.completed)
  { question_id := qid
    completed := newCompleted
    marked_for_revision := priorBool prior (fun p => p.marked_for_revision)
    note := prior.bind (fun p => p.note)
    time_spent := some ((prior.bind (fun p => p.time_spent)).getD 0)
    completed_at := if newCompleted then some (DateVal.valid now) else none }

/-- The state after `toggleRevision` in QuestionItem: its payload does
not carry a `completed_at` key, so the upsert leaves the stored value
unchanged. -/
def rowToggleRevision (qid : String) (prior : Option UserProgress) : UserProgress :=
  { question_id := qid
    completed := priorBool prior (fun p => p.completed)
    marked_for_revision := !priorBool prior (fun p => p.marked_for_revision)
    note := prior.bind (fun p => p.note)
    time_spent := some ((prior.bind (fun p => p.time_spent)).getD 0)
    completed_at := prior.bind (fun p => p.completed_at) }

/-- The state after `saveNote` in QuestionItem. -/
def rowSaveNote (qid : String) (prior : Option UserProgress) (note : String) :
    UserProgress :=
  { question_id := qid
    completed := priorBool prior (fun p => p.completed)
    marked_for_revision := priorBool prior (fun p => p.marked_for_revision)
    note := some note
    time_spent := some ((prior.bind (fun p => p.time_spent)).getD 0)
    completed_at := prior.bind (fun p => p.completed_at) }

/-- The state after `stopTimer` in QuestionItem persists the accumulated
seconds. -/
def rowStopTimer (qid : String) (prior : Option UserProgress) (t : Nat) :
    UserProgress :=
  { question_id := qid
    completed := priorBool prior (fun p => p.completed)
    marked_for_revision := priorBool prior (fun p => p.marked_for_revision)
    note := prior.bind (fun p => p.note)
    time_spent := some t
    completed_at := prior.bind (fun p => p.completed_at) }

/-- The bulk actions of `performBulkAction` in BulkActions. -/
inductive BulkAction
  | complete
  | revision
  | reset
deriving DecidableEq, Repr

/-- The row `performBulkAction` builds for one selected question: the
base row from the prior record (`currentProgress?.x || default`) with
the per-action fields spread over it.  The `revision` payload has no
`completed_at` key, so the stored value is kept; `complete` stamps the
current time; `reset` clears `completed`, `marked_for_revision` and
`completed_at` together. -/
def bulkRow (action : BulkAction) (qid : String) (prior : Option UserProgress)
    (now : Int) : UserProgress :=
  let base : UserProgress :=
    { question_id := qid
      completed := priorBool prior (fun p => p.completed)
      marked_for_revision := priorBool prior (fun p => p.marked_for_revision)
      note := some ((prior.bind (fun p => p.note)).getD "")
      time_spent := some ((prior.bind (fun p => p.time_spent)).getD 0)
      completed_at := prior.bind (fun p => p.completed_at) }
  match action with
  | .complete => { base with completed := true, completed_at := some (DateVal.valid now) }
  | .revision => { base with marked_for_revision := true }
  | .reset => { base with
      completed := false
      marked_for_revision := false
      completed_at := none }

/-- The row `markCompleted` of the progress service writes. -/
def rowMarkCompleted (qid : String) (prior : Option UserProgress) (now : Int)
    (timeSpent : Option Nat) : UserProgress :=
  { question_id := qid
    completed := true
    marked_for_revision := priorBool prior (fun p => p.marked_for_revision)
    note := prior.bind (fun p => p.note)
    time_spent := timeSpent
    completed_at := some (DateVal.valid now) }

/-- The data-model invariant (spec 3): a row with `completed = true`
carries a non-null `completed_at`. -/
def ProgressInvariant (p : UserProgress) : Prop :=
  p.completed = true → p.completed_at.isSome = true

instance (p : UserProgress) : Decidable (ProgressInvariant p) := by
  unfold ProgressInvariant
  infer_instance

/-- Day numbers of the valid dates in a date list. -/
def daysOf (L : List DateVal) : List Int :=
  L.filterMap (fun x => match x with | .valid d => some d | .invalid => none)

/-- `runLenFrom` on plain day numbers. -/
def intRunLen : List Int → Nat
  | [] => 0
  | [_] => 1
  | a :: b :: rest => if a - b = 1 then 1 + intRunLen (b :: rest) else 1

/-- `maxRunOf` on plain day numbers. -/
def intMaxRun : List Int → Nat
  | [] => 0
  | d :: rest => max (intRunLen (d :: rest)) (intMaxRun rest)

/-- `insertD` on plain day numbers (descending). -/
def intInsertDesc (x : Int) : List Int → List Int
  | [] => [x]
  | y :: t => if x < y then y :: intInsertDesc x t else x :: y :: t

/-- `sortDates` on plain day numbers (descending). -/
def intSortDesc (l : List Int) : List Int :=
  l.foldr intInsertDesc []

/-- A sample question used in concrete evaluations. -/
def sampleQ (i : String) (t : String) (d : Difficulty) : Question :=
  { id := i
    sheet_id := "s"
    title := i
    topic := t
    tags := []
    difficulty := d }

/-- A blank progress record (all flags false), the default a question
without any record is compared against. -/
def blankRec (qid : String) : UserProgress :=
  { question_id := qid
    completed := false
    marked_for_revision := false
    note := none
    time_spent := none
    completed_at := none }

/-- A completed progress record with the given `completed_at`, used in
concrete evaluations. -/
def mkDone (d : Option DateVal) : UserProgress :=
  { question_id := "q"
    completed := true
    marked_for_revision := false
    note := none
    time_spent := none
    completed_at := d }

/-! Lemma layer: deduplication, sorting, membership. -/

theorem mem_dedupKFAux {α : Type} [DecidableEq α] (l : List α) :
    ∀ (seen : List α) (a : α),
      a ∈ dedupKeepFirstAux seen l ↔ a ∈ l ∧ a ∉ seen := by
  induction l with
  | nil => intro seen a; simp [dedupKeepFirstAux]
  | cons b rest ih =>
    intro seen a
    rw [dedupKeepFirstAux]
    by_cases hb : b ∈ seen
    · rw [if_pos hb, ih seen a]
      simp only [List.mem_cons]
      constructor
      · rintro ⟨h1, h2⟩
        exact ⟨Or.inr h1, h2⟩
      · rintro ⟨h1 | h1, h2⟩
        · exact absurd (h1 ▸ hb) h2
        · exact ⟨h1, h2⟩
    · rw [if_neg hb]
      rw [List.mem_cons, ih (b :: seen) a]
      simp only [List.mem_cons]
      by_cases hab : a = b
      · simp [hab, hb]
      · simp [hab]

theorem mem_dedupKF {α : Type} [DecidableEq α] (l : List α) (a : α) :
    a ∈ dedupKeepFirst l ↔ a ∈ l := by
  unfold dedupKeepFirst
  rw [mem_dedupKFAux]
  simp

theorem nodup_dedupKFAux {α : Type} [DecidableEq α] (l : List α) :
    ∀ seen : List α, (dedupKeepFirstAux seen l).Nodup := by
  induction l with
  | nil => intro seen; simp [dedupKeepFirstAux]
  | cons b rest ih =>
    intro seen
    rw [dedupKeepFirstAux]
    by_cases hb : b ∈ seen
    · rw [if_pos hb]
      exact ih seen
    · rw [if_neg hb]
      refine List.nodup_cons.mpr ⟨?_, ih (b :: seen)⟩
      intro hmem
      rw [mem_dedupKFAux] at hmem
      exact hmem.2 (List.mem_cons_self b seen)

theorem nodup_dedupKF {α : Type} [DecidableEq α] (l : List α) :
    (dedupKeepFirst l).Nodup :=
  nodup_dedupKFAux l []

theorem dedupKFAux_append_mem {α : Type} [DecidableEq α] (l : List α) :
    ∀ (seen : List α) (x : α), x ∈ l ∨ x ∈ seen →
      dedupKeepFirstAux seen (l ++ [x]) = dedupKeepFirstAux seen l := by
  induction l with
  | nil =>
    intro seen x hx
    rcases hx with h | h
    · simp at h
    · simp [dedupKeepFirstAux, h]
  | cons b rest ih =>
    intro seen x hx
    rw [List.cons_append, dedupKeepFirstAux, dedupKeepFirstAux]
    by_cases hb : b ∈ seen
    · rw [if_pos hb, if_pos hb]
      apply ih
      rcases hx with h | h
      · rcases List.mem_cons.mp h with h1 | h1
        · exact Or.inr (h1 ▸ hb)
        · exact Or.inl h1
      · exact Or.inr h
    · rw [if_neg hb, if_neg hb]
      congr 1
      apply ih
      rcases hx with h | h
      · rcases List.mem_cons.mp h with h1 | h1
        · exact Or.inr (by simp [h1])
        · exact Or.inl h1
      · exact Or.inr (List.mem_cons_of_mem b h)

theorem dedupKFAux_append_not_mem {α : Type} [DecidableEq α] (l : List α) :
    ∀ (seen : List α) (x : α), x ∉ l → x ∉ seen →
      dedupKeepFirstAux seen (l ++ [x]) = dedupKeepFirstAux seen l ++ [x] := by
  induction l with
  | nil =>
    intro seen x _ hxs
    simp [dedupKeepFirstAux, hxs]
  | cons b rest ih =>
    intro seen x hxl hxs
    have hxb : x ≠ b := fun h => hxl (by simp [h])
    have hxr : x ∉ rest := fun h => hxl (by simp [h])
    rw [List.cons_append, dedupKeepFirstAux, dedupKeepFirstAux]
    by_cases hb : b ∈ seen
    · rw [if_pos hb, if_pos hb]
      exact ih seen x hxr hxs
    · rw [if_neg hb, if_neg hb, List.cons_append]
      congr 1
      apply ih (b :: seen) x hxr
      intro hmem
      rcases List.mem_cons.mp hmem with h | h
      · exact hxb h
      · exact hxs h

theorem dedupKF_append_mem {α : Type} [DecidableEq α] (l : List α) (x : α)
    (hx : x ∈ l) : dedupKeepFirst (l ++ [x]) = dedupKeepFirst l :=
  dedupKFAux_append_mem l [] x (Or.inl hx)

theorem dedupKF_append_not_mem {α : Type} [DecidableEq α] (l : List α) (x : α)
    (hx : x ∉ l) : dedupKeepFirst (l ++ [x]) = dedupKeepFirst l ++ [x] :=
  dedupKFAux_append_not_mem l [] x hx (by simp)

theorem mem_insertD (x a : DateVal) (l : List DateVal) :
    a ∈ insertD x l ↔ a = x ∨ a ∈ l := by
  induction l with
  | nil => simp [insertD]
  | cons b t ih =>
    rw [insertD]
    by_cases hb : beforeD b x = true
    · simp only [if_pos hb, List.mem_cons, ih]
      tauto
    · simp only [if_neg hb, List.mem_cons]

theorem perm_insertD (x : DateVal) (l : List DateVal) :
    (insertD x l).Perm (x :: l) := by
  induction l with
  | nil => simp [insertD]
  | cons b t ih =>
    rw [insertD]
    by_cases hb : beforeD b x = true
    · rw [if_pos hb]
      exact (ih.cons b).trans (List.Perm.swap x b t)
    · rw [if_neg hb]

theorem perm_sortDates (l : List DateVal) : (sortDates l).Perm l := by
  induction l with
  | nil => simp [sortDates]
  | cons a t ih =>
    have : sortDates (a :: t) = insertD a (sortDates t) := rfl
    rw [this]
    exact (perm_insertD a (sortDates t)).trans (ih.cons a)

theorem mem_sortDates (a : DateVal) (l : List DateVal) :
    a ∈ sortDates l ↔ a ∈ l :=
  (perm_sortDates l).mem_iff

theorem nodup_sortDates (l : List DateVal) (h : l.Nodup) :
    (sortDates l).Nodup :=
  ((perm_sortDates l).nodup_iff).mpr h

theorem mem_dateStrings (l : List UserProgress) (d : Int) :
    DateVal.valid d ∈ dateStringsOf l ↔ ActiveOn l d := by
  unfold dateStringsOf ActiveOn
  rw [List.mem_filterMap]
  constructor
  · rintro ⟨p, hp, hpd⟩
    by_cases hc : p.completed = true
    · exact ⟨p, hp, hc, by simpa [hc] using hpd⟩
    · simp [hc] at hpd
  · rintro ⟨p, hp, hc, hd⟩
    exact ⟨p, hp, by simp [hc, hd]⟩

theorem mem_completedDates (l : List UserProgress) (d : Int) :
    DateVal.valid d ∈ completedDates l ↔ ActiveOn l d := by
  unfold completedDates
  rw [mem_sortDates, mem_dedupKF, mem_dateStrings]

theorem nodup_completedDates (l : List UserProgress) :
    (completedDates l).Nodup :=
  nodup_sortDates _ (nodup_dedupKF _)

/-! Lemma layer: the current-streak walk. -/

theorem walkBack_le (dates : List DateVal) : ∀ (d : Int) (f : Nat),
    walkBack dates d f ≤ f := by
  intro d f
  induction f generalizing d with
  | zero => simp [walkBack]
  | succ f ih =>
    rw [walkBack]
    by_cases h : DateVal.valid d ∈ dates
    · rw [if_pos h]
      exact Nat.succ_le_succ (ih (d - 1))
    · rw [if_neg h]
      exact Nat.zero_le _

theorem walkBack_mem (dates : List DateVal) : ∀ (f : Nat) (d : Int) (i : Nat),
    i < walkBack dates d f → DateVal.valid (d - i) ∈ dates := by
  intro f
  induction f with
  | zero => intro d i hi; simp [walkBack] at hi
  | succ f ih =>
    intro d i hi
    rw [walkBack] at hi
    by_cases h : DateVal.valid d ∈ dates
    · rw [if_pos h] at hi
      cases i with
      | zero => simpa using h
      | succ j =>
        have hj : j < walkBack dates (d - 1) f := Nat.lt_of_succ_lt_succ hi
        have := ih (d - 1) j hj
        have heq : d - 1 - (j : Int) = d - ((j : Int) + 1) := by ring
        rw [heq] at this
        simpa [Nat.cast_succ] using this
    · rw [if_neg h] at hi
      exact absurd hi (Nat.not_lt_zero i)

theorem walkBack_stop (dates : List DateVal) : ∀ (f : Nat) (d : Int),
    walkBack dates d f < f → DateVal.valid (d - (walkBack dates d f : Int)) ∉ dates := by
  intro f
  induction f with
  | zero => intro d h; exact absurd h (Nat.not_lt_zero _)
  | succ f ih =>
    intro d h
    rw [walkBack] at h ⊢
    by_cases hm : DateVal.valid d ∈ dates
    · rw [if_pos hm] at h ⊢
      have hlt : walkBack dates (d - 1) f < f := Nat.lt_of_succ_lt_succ h
      have := ih (d - 1) hlt
      have heq : d - ((walkBack dates (d - 1) f : Int) + 1)
          = d - 1 - (walkBack dates (d - 1) f : Int) := by ring
      simpa [Nat.cast_succ, heq] using this
    · rw [if_neg hm]
      simpa using hm

theorem walkBack_full (dates : List DateVal) (hnd : dates.Nodup) (d : Int)
    (h : walkBack dates d dates.length = dates.length) :
    DateVal.valid (d - (dates.length : Int)) ∉ dates := by
  intro hmem
  set n := dates.length with hn
  have hmemT : ∀ i : Nat, i < n → DateVal.valid (d - i) ∈ dates := by
    intro i hi
    exact walkBack_mem dates n d i (by omega)
  -- the n distinct dates d, d-1, ..., d-n+1 exhaust the nodup list
  set T : Finset DateVal :=
    (Finset.range n).image (fun i : Nat => DateVal.valid (d - i)) with hT
  have hinj : ∀ i ∈ Finset.range n, ∀ j ∈ Finset.range n,
      DateVal.valid (d - i) = DateVal.valid (d - j) → i = j := by
    intro i _ j _ hij
    have : d - (i : Int) = d - (j : Int) := by injection hij
    omega
  have hcardT : T.card = n := by
    rw [hT, Finset.card_image_of_injOn hinj, Finset.card_range]
  have hsub : T ⊆ dates.toFinset := by
    intro x hx
    rw [hT] at hx
    rcases Finset.mem_image.mp hx with ⟨i, hi, hxi⟩
    rw [List.mem_toFinset, ← hxi]
    exact hmemT i (Finset.mem_range.mp hi)
  have hcardS : dates.toFinset.card = n := by
    rw [List.toFinset_card_of_nodup hnd]
  have hTS : T = dates.toFinset :=
    Finset.eq_of_subset_of_card_le hsub (by rw [hcardT, hcardS])
  have : DateVal.valid (d - (n : Int)) ∈ T := by
    rw [hTS, List.mem_toFinset]
    exact hmem
  rw [hT] at this
  rcases Finset.mem_image.mp this with ⟨i, hi, hxi⟩
  have : d - (i : Int) = d - (n : Int) := by injection hxi
  have := Finset.mem_range.mp hi
  omega

theorem walkBack_char (dates : List DateVal) (hnd : dates.Nodup) (d : Int) :
    (∀ i : Nat, i < walkBack dates d dates.length → DateVal.valid (d - i) ∈ dates) ∧
      DateVal.valid (d - (walkBack dates d dates.length : Int)) ∉ dates := by
  refine ⟨walkBack_mem dates dates.length d, ?_⟩
  rcases Nat.lt_or_ge (walkBack dates d dates.length) dates.length with hlt | hge
  · exact walkBack_stop dates dates.length d hlt
  · have heq : walkBack dates d dates.length = dates.length :=
      Nat.le_antisymm (walkBack_le dates d dates.length) hge
    rw [heq]
    exact walkBack_full dates hnd d heq

/-- Two run lengths from the same anchor over the same activity
predicate agree. -/
theorem runUnique (act : Int → Prop) (d : Int) (m n : Nat)
    (hm1 : ∀ i : Nat, i < m → act (d - i)) (hm2 : ¬act (d - (m : Int)))
    (hn1 : ∀ i : Nat, i < n → act (d - i)) (hn2 : ¬act (d - (n : Int))) :
    m = n := by
  rcases Nat.lt_trichotomy m n with h | h | h
  · exact absurd (hn1 m h) hm2
  · exact h
  · exact absurd (hm1 n h) hn2

/-- Characterization of the AdvancedFeatures current streak: it is zero
when neither today nor yesterday is active, and otherwise the length of
the contiguous run of active days walking backward from the anchor. -/
theorem calculateStreaks_current_char (today : Int) (l : List UserProgress) :
    (¬ActiveOn l today ∧ ¬ActiveOn l (today - 1) →
      (calculateStreaks today l).currentStreak = 0) ∧
    ((ActiveOn l today ∨ ActiveOn l (today - 1)) →
      (∀ i : Nat, i < (calculateStreaks today l).currentStreak →
        ActiveOn l ((if ActiveOn l today then today else today - 1) - i)) ∧
      ¬ActiveOn l ((if ActiveOn l today then today else today - 1) -
        ((calculateStreaks today l).currentStreak : Int)) ∧
      0 < (calculateStreaks today l).currentStreak) := by
  have hmem : ∀ d : Int, DateVal.valid d ∈ completedDates l ↔ ActiveOn l d :=
    mem_completedDates l
  constructor
  · intro ⟨h1, h2⟩
    unfold calculateStreaks
    simp only [hmem]
    rw [if_neg (by tauto)]
  · intro hor
    have hcond : DateVal.valid today ∈ completedDates l ∨
        DateVal.valid (today - 1) ∈ completedDates l := by
      rcases hor with h | h
      · exact Or.inl ((hmem today).mpr h)
      · exact Or.inr ((hmem (today - 1)).mpr h)
    have hcur : (calculateStreaks today l).currentStreak =
        walkBack (completedDates l)
          (if ActiveOn l today then today else today - 1)
          (completedDates l).length := by
      unfold calculateStreaks
      simp only []
      rw [if_pos hcond]
      congr 1
      by_cases ht : ActiveOn l today
      · rw [if_pos ht, if_pos ((hmem today).mpr ht)]
      · rw [if_neg ht, if_neg (fun h => ht ((hmem today).mp h))]
    set anchor := if ActiveOn l today then today else today - 1 with hanchor
    have hchar := walkBack_char (completedDates l) (nodup_completedDates l) anchor
    have hanch_mem : DateVal.valid anchor ∈ completedDates l := by
      rw [hanchor]
      by_cases ht : ActiveOn l today
      · rw [if_pos ht]
        exact (hmem today).mpr ht
      · rw [if_neg ht]
        rcases hor with h | h
        · exact absurd h ht
        · exact (hmem (today - 1)).mpr h
    refine ⟨?_, ?_, ?_⟩
    · intro i hi
      rw [hcur] at hi
      exact (hmem _).mp (hchar.1 i hi)
    · rw [hcur]
      intro hact
      exact hchar.2 ((hmem _).mpr hact)
    · rw [hcur]
      rcases Nat.eq_zero_or_pos (walkBack (completedDates l) anchor
        (completedDates l).length) with h | h
      on_goal 2 => exact h
      · exfalso
        have := hchar.2
        rw [h] at this
        simp at this
        exact this hanch_mem

/-! Lemma layer: the utils streak walk with its fallible predicate. -/

theorem ActiveOn_cons (p : UserProgress) (l : List UserProgress) (d : Int) :
    ActiveOn (p :: l) d ↔
      (p.completed = true ∧ p.completed_at = some (DateVal.valid d)) ∨ ActiveOn l d := by
  unfold ActiveOn
  simp only [List.mem_cons]
  constructor
  · rintro ⟨x, hx | hx, hc, hd⟩
    · subst hx
      exact Or.inl ⟨hc, hd⟩
    · exact Or.inr ⟨x, hx, hc, hd⟩
  · rintro (⟨hc, hd⟩ | ⟨x, hx, hc, hd⟩)
    · exact ⟨p, Or.inl rfl, hc, hd⟩
    · exact ⟨x, Or.inr hx, hc, hd⟩

theorem mem_daysOf (L : List DateVal) (d : Int) :
    d ∈ daysOf L ↔ DateVal.valid d ∈ L := by
  unfold daysOf
  rw [List.mem_filterMap]
  constructor
  · rintro ⟨x, hx, hxd⟩
    cases x with
    | valid e =>
      simp only [] at hxd
      have : e = d := by injection hxd
      rw [← this]
      exact hx
    | invalid => simp at hxd
  · intro hd
    exact ⟨DateVal.valid d, hd, rfl⟩

theorem completedOnE_none (d : Int) (p : UserProgress)
    (hne : p.completed = true → p.completed_at ≠ some (DateVal.valid d))
    (hni : p.completed = true → p.completed_at ≠ some DateVal.invalid) :
    completedOnE d p = .ok false := by
  unfold completedOnE
  by_cases hc : p.completed = true
  · rw [if_pos hc]
    cases hca : p.completed_at with
    | none => rfl
    | some v =>
      cases v with
      | valid e =>
        have : e ≠ d := by
          intro he
          exact hne hc (by rw [hca, he])
        simp [this]
      | invalid => exact absurd hca (hni hc)
  · rw [if_neg hc]

theorem completedOnE_hit (d : Int) (p : UserProgress) (hc : p.completed = true)
    (hd : p.completed_at = some (DateVal.valid d)) :
    completedOnE d p = .ok true := by
  unfold completedOnE
  rw [if_pos hc, hd]
  simp

theorem someOnE_ok (l : List UserProgress) (h : NoInvalid l) (d : Int) :
    someOnE d l = .ok (decide (ActiveOn l d)) := by
  induction l with
  | nil => simp [someOnE, ActiveOn]
  | cons p rest ih =>
    have hrest : NoInvalid rest := fun q hq => h q (List.mem_cons_of_mem p hq)
    by_cases hhit : p.completed = true ∧ p.completed_at = some (DateVal.valid d)
    · have hact : ActiveOn (p :: rest) d := (ActiveOn_cons p rest d).mpr (Or.inl hhit)
      rw [someOnE, completedOnE_hit d p hhit.1 hhit.2]
      simp [hact]
    · have hco : completedOnE d p = .ok false :=
        completedOnE_none d p (fun hc hd => hhit ⟨hc, hd⟩)
          (fun hc => h p (List.mem_cons_self p rest) hc)
      rw [someOnE, hco, ih hrest]
      simp only [ActiveOn_cons]
      simp [hhit]

theorem active_mem_daysFinset (l : List UserProgress) (d : Int)
    (h : ActiveOn l d) : d ∈ (daysOf (dateStringsOf l)).toFinset := by
  rw [List.mem_toFinset, mem_daysOf, mem_dateStrings]
  exact h

theorem streakAuxE_char (l : List UserProgress) (h : NoInvalid l) :
    ∀ (f : Nat) (d : Int),
      ((daysOf (dateStringsOf l)).toFinset.filter (fun a => a ≤ d)).card < f →
      ∃ n, streakAuxE l d f = .ok n ∧
        (∀ i : Nat, i < n → ActiveOn l (d - i)) ∧ ¬ActiveOn l (d - (n : Int)) := by
  intro f
  induction f with
  | zero => intro d hd; exact absurd hd (Nat.not_lt_zero _)
  | succ f ih =>
    intro d hd
    by_cases hact : ActiveOn l d
    · have hmemd : d ∈ (daysOf (dateStringsOf l)).toFinset :=
        active_mem_daysFinset l d hact
      have hcard : ((daysOf (dateStringsOf l)).toFinset.filter (fun a => a ≤ d - 1)).card <
          ((daysOf (dateStringsOf l)).toFinset.filter (fun a => a ≤ d)).card := by
        apply Finset.card_lt_card
        constructor
        · intro a ha
          rw [Finset.mem_filter] at ha ⊢
          exact ⟨ha.1, by omega⟩
        · intro hsub
          have : d ∈ (daysOf (dateStringsOf l)).toFinset.filter (fun a => a ≤ d - 1) :=
            hsub (Finset.mem_filter.mpr ⟨hmemd, by omega⟩)
          rw [Finset.mem_filter] at this
          omega
      rcases ih (d - 1) (by omega) with ⟨n, hn, hmem, hstop⟩
      refine ⟨n + 1, ?_, ?_, ?_⟩
      · rw [streakAuxE, someOnE_ok l h d]
        have : decide (ActiveOn l d) = true := by simp [hact]
        rw [this]
        simp only []
        rw [hn]
      · intro i hi
        cases i with
        | zero => simpa using hact
        | succ j =>
          have hj : j < n := Nat.lt_of_succ_lt_succ hi
          have := hmem j hj
          have heq : d - 1 - (j : Int) = d - ((j : Int) + 1) := by ring
          rw [heq] at this
          simpa [Nat.cast_succ] using this
      · have heq : d - ((n : Int) + 1) = d - 1 - (n : Int) := by ring
        simpa [Nat.cast_succ, heq] using hstop
    · refine ⟨0, ?_, ?_, ?_⟩
      · rw [streakAuxE, someOnE_ok l h d]
        have : decide (ActiveOn l d) = false := by simp [hact]
        rw [this]
      · intro i hi
        exact absurd hi (Nat.not_lt_zero i)
      · simpa using hact

theorem calculateCurrentStreak_char (l : List UserProgress) (h : NoInvalid l)
    (today : Int) :
    ∃ n, calculateCurrentStreak today l = .ok n ∧
      (∀ i : Nat, i < n → ActiveOn l (today - i)) ∧
      ¬ActiveOn l (today - (n : Int)) := by
  apply streakAuxE_char l h
  calc ((daysOf (dateStringsOf l)).toFinset.filter (fun a => a ≤ today)).card
      ≤ (daysOf (dateStringsOf l)).toFinset.card := Finset.card_filter_le _ _
    _ ≤ (daysOf (dateStringsOf l)).length := (daysOf (dateStringsOf l)).toFinset_card_le
    _ ≤ (dateStringsOf l).length := List.length_filterMap_le _ _
    _ ≤ l.length := List.length_filterMap_le _ _
    _ < l.length + 1 := Nat.lt_succ_self _

theorem someOnE_error_head (q : UserProgress) (l : List UserProgress) (d : Int)
    (hc : q.completed = true) (ha : q.completed_at = some DateVal.invalid) :
    someOnE d (q :: l) = .error () := by
  rw [someOnE]
  have : completedOnE d q = .error () := by
    unfold completedOnE
    rw [if_pos hc, ha]
  rw [this]

theorem calculateCurrentStreak_error_head (q : UserProgress)
    (l : List UserProgress) (d : Int) (hc : q.completed = true)
    (ha : q.completed_at = some DateVal.invalid) :
    calculateCurrentStreak d (q :: l) = .error () := by
  unfold calculateCurrentStreak
  rw [streakAuxE, someOnE_error_head q l d hc ha]

theorem countTodayE_error_head (q : UserProgress) (l : List UserProgress)
    (d : Int) (hc : q.completed = true)
    (ha : q.completed_at = some DateVal.invalid) :
    countTodayE d (q :: l) = .error () := by
  rw [countTodayE]
  have : completedOnE d q = .error () := by
    unfold completedOnE
    rw [if_pos hc, ha]
  rw [this]

/-! Lemma layer: the longest-streak scan over the sorted date list. -/

theorem daysOf_map_valid (l : List Int) : daysOf (l.map DateVal.valid) = l := by
  induction l with
  | nil => rfl
  | cons a t ih => simp [daysOf, List.filterMap_cons] at ih ⊢; exact ih

theorem allValid_eq_map (L : List DateVal) (h : ∀ x ∈ L, x ≠ DateVal.invalid) :
    L = (daysOf L).map DateVal.valid := by
  induction L with
  | nil => rfl
  | cons a t ih =>
    cases a with
    | valid d =>
      have := ih (fun x hx => h x (List.mem_cons_of_mem _ hx))
      simp only [daysOf, List.filterMap_cons] at *
      simpa using this
    | invalid => exact absurd rfl (h DateVal.invalid (List.mem_cons_self _ _))

theorem dateStrings_valid (l : List UserProgress) (h : NoInvalid l) :
    ∀ x ∈ dateStringsOf l, x ≠ DateVal.invalid := by
  intro x hx
  unfold dateStringsOf at hx
  rw [List.mem_filterMap] at hx
  rcases hx with ⟨p, hp, hpx⟩
  by_cases hc : p.completed = true
  · rw [if_pos hc] at hpx
    intro hinv
    rw [hinv] at hpx
    exact h p hp hc hpx
  · rw [if_neg hc] at hpx
    exact absurd hpx (by simp)

theorem dedupKF_valid (L : List DateVal) (h : ∀ x ∈ L, x ≠ DateVal.invalid) :
    ∀ x ∈ dedupKeepFirst L, x ≠ DateVal.invalid := by
  intro x hx
  exact h x ((mem_dedupKF L x).mp hx)

theorem insertD_map_valid (x : Int) (l : List Int) :
    insertD (DateVal.valid x) (l.map DateVal.valid) =
      (intInsertDesc x l).map DateVal.valid := by
  induction l with
  | nil => rfl
  | cons y t ih =>
    simp only [List.map_cons, insertD, intInsertDesc, beforeD]
    by_cases hxy : x < y
    · rw [if_pos (by simpa using hxy), if_pos hxy, List.map_cons, ih]
    · rw [if_neg (by simpa using hxy), if_neg hxy, List.map_cons, List.map_cons]

theorem sortDates_map_valid (l : List Int) :
    sortDates (l.map DateVal.valid) = (intSortDesc l).map DateVal.valid := by
  induction l with
  | nil => rfl
  | cons a t ih =>
    have h1 : sortDates ((a :: t).map DateVal.valid)
        = insertD (DateVal.valid a) (sortDates (t.map DateVal.valid)) := rfl
    have h2 : intSortDesc (a :: t) = intInsertDesc a (intSortDesc t) := rfl
    rw [h1, ih, h2, insertD_map_valid]

theorem runLenFrom_map_valid : ∀ l : List Int,
    runLenFrom (l.map DateVal.valid) = intRunLen l
  | [] => by simp [runLenFrom, intRunLen]
  | [_] => by simp [runLenFrom, intRunLen]
  | a :: b :: rest => by
    simp only [List.map_cons, runLenFrom, intRunLen]
    by_cases hab : a - b = 1
    · rw [if_pos hab, if_pos hab, ← List.map_cons, runLenFrom_map_valid (b :: rest)]
    · rw [if_neg hab, if_neg hab]

theorem maxRunOf_map_valid : ∀ l : List Int,
    maxRunOf (l.map DateVal.valid) = intMaxRun l
  | [] => rfl
  | a :: t => by
    simp only [List.map_cons, maxRunOf, intMaxRun]
    rw [← List.map_cons, runLenFrom_map_valid (a :: t), maxRunOf_map_valid t]

theorem mem_intInsertDesc (x a : Int) (l : List Int) :
    a ∈ intInsertDesc x l ↔ a = x ∨ a ∈ l := by
  induction l with
  | nil => simp [intInsertDesc]
  | cons y t ih =>
    rw [intInsertDesc]
    by_cases hxy : x < y
    · simp only [if_pos hxy, List.mem_cons, ih]
      tauto
    · simp only [if_neg hxy, List.mem_cons]

theorem perm_intInsertDesc (x : Int) (l : List Int) :
    (intInsertDesc x l).Perm (x :: l) := by
  induction l with
  | nil => simp [intInsertDesc]
  | cons y t ih =>
    rw [intInsertDesc]
    by_cases hxy : x < y
    · rw [if_pos hxy]
      exact (ih.cons y).trans (List.Perm.swap x y t)
    · rw [if_neg hxy]

theorem perm_intSortDesc (l : List Int) : (intSortDesc l).Perm l := by
  induction l with
  | nil => simp [intSortDesc]
  | cons a t ih =>
    have : intSortDesc (a :: t) = intInsertDesc a (intSortDesc t) := rfl
    rw [this]
    exact (perm_intInsertDesc a (intSortDesc t)).trans (ih.cons a)

theorem sorted_intInsertDesc (x : Int) (l : List Int)
    (h : l.Pairwise (fun a b => b ≤ a)) :
    (intInsertDesc x l).Pairwise (fun a b => b ≤ a) := by
  induction l with
  | nil => simp [intInsertDesc]
  | cons y t ih =>
    rw [List.pairwise_cons] at h
    rw [intInsertDesc]
    by_cases hxy : x < y
    · rw [if_pos hxy]
      rw [List.pairwise_cons]
      constructor
      · intro a ha
        rw [mem_intInsertDesc] at ha
        rcases ha with ha | ha
        · omega
        · exact h.1 a ha
      · exact ih h.2
    · rw [if_neg hxy]
      rw [List.pairwise_cons]
      constructor
      · intro a ha
        rcases List.mem_cons.mp ha with ha | ha
        · omega
        · have := h.1 a ha
          omega
      · exact List.pairwise_cons.mpr h

theorem sorted_intSortDesc (l : List Int) :
    (intSortDesc l).Pairwise (fun a b => b ≤ a) := by
  induction l with
  | nil => simp [intSortDesc]
  | cons a t ih =>
    have : intSortDesc (a :: t) = intInsertDesc a (intSortDesc t) := rfl
    rw [this]
    exact sorted_intInsertDesc a (intSortDesc t) ih

theorem strict_of_sorted_nodup (l : List Int)
    (hs : l.Pairwise (fun a b => b ≤ a)) (hn : l.Nodup) :
    l.Pairwise (fun a b => b < a) := by
  induction l with
  | nil => simp
  | cons a t ih =>
    rw [List.pairwise_cons] at hs ⊢
    rw [List.nodup_cons] at hn
    refine ⟨?_, ih hs.2 hn.2⟩
    intro b hb
    have h1 := hs.1 b hb
    have h2 : b ≠ a := fun he => hn.1 (he ▸ hb)
    omega

theorem intRunLen_pos : ∀ (a : Int) (t : List Int), 1 ≤ intRunLen (a :: t)
  | _, [] => le_refl 1
  | a, b :: t => by
    rw [intRunLen]
    by_cases hab : a - b = 1
    · rw [if_pos hab]
      omega
    · rw [if_neg hab]

theorem intRunLen_mem : ∀ (a : Int) (t : List Int),
    (a :: t).Pairwise (fun x y => y < x) →
    ∀ i : Nat, i < intRunLen (a :: t) → a - i ∈ a :: t
  | a, [], _ => by
    intro i hi
    have : intRunLen [a] = 1 := rfl
    rw [this] at hi
    interval_cases i
    simp
  | a, b :: t, hp => by
    intro i hi
    rw [intRunLen] at hi
    by_cases hab : a - b = 1
    · rw [if_pos hab] at hi
      cases i with
      | zero => simp
      | succ j =>
        have hj : j < intRunLen (b :: t) := by omega
        have hpt : (b :: t).Pairwise (fun x y => y < x) :=
          (List.pairwise_cons.mp hp).2
        have := intRunLen_mem b t hpt j hj
        have heq : a - ((j : Int) + 1) = b - (j : Int) := by omega
        rw [Nat.cast_succ, heq]
        exact List.mem_cons_of_mem a this
    · rw [if_neg hab] at hi
      interval_cases i
      simp

theorem intRunLen_ub : ∀ (a : Int) (t : List Int) (k : Nat),
    (a :: t).Pairwise (fun x y => y < x) →
    (∀ i : Nat, i < k → a - i ∈ a :: t) → k ≤ intRunLen (a :: t)
  | a, [], k, _, hmem => by
    by_contra hk
    have h2 : 2 ≤ k := by
      have h1 : intRunLen [a] = 1 := rfl
      omega
    have h3 := hmem 1 (by omega)
    simp at h3
  | a, b :: t, k, hp, hmem => by
    rcases le_or_lt k 1 with hk | hk
    · exact le_trans hk (intRunLen_pos a (b :: t))
    · have hmem1 := hmem 1 (by omega)
      have hne : a - 1 ≠ a := by omega
      have hab : a - 1 ∈ b :: t := by
        rcases List.mem_cons.mp hmem1 with h | h
        · exact absurd h hne
        · exact h
      rw [List.pairwise_cons] at hp
      have hba : b < a := hp.1 b (List.mem_cons_self b t)
      have hb1 : a - 1 = b := by
        rcases List.mem_cons.mp hab with h | h
        · omega
        · have := hp.2
          rw [List.pairwise_cons] at this
          have := this.1 (a - 1) h
          omega
      have hrun : intRunLen (a :: b :: t) = 1 + intRunLen (b :: t) := by
        rw [intRunLen, if_pos (by omega)]
      have hmem2 : ∀ i : Nat, i < k - 1 → b - i ∈ b :: t := by
        intro i hi
        have := hmem (i + 1) (by omega)
        have heq : a - ((i : Int) + 1) = b - (i : Int) := by omega
        rw [Nat.cast_add, Nat.cast_one, heq] at this
        rcases List.mem_cons.mp this with h | h
        · exfalso
          omega
        · exact h
      have := intRunLen_ub b t (k - 1) hp.2 hmem2
      omega

theorem intMaxRun_witness : ∀ l : List Int,
    l.Pairwise (fun x y => y < x) →
    intMaxRun l = 0 ∨ ∃ d : Int, ∀ i : Nat, i < intMaxRun l → d - i ∈ l
  | [], _ => Or.inl rfl
  | a :: t, hp => by
    rw [intMaxRun]
    rcases le_or_lt (intMaxRun t) (intRunLen (a :: t)) with hle | hlt
    · rw [max_eq_left hle]
      exact Or.inr ⟨a, intRunLen_mem a t hp⟩
    · rw [max_eq_right (le_of_lt hlt)]
      rcases intMaxRun_witness t (List.pairwise_cons.mp hp).2 with h0 | ⟨d, hd⟩
      · exact Or.inl h0
      · exact Or.inr ⟨d, fun i hi => List.mem_cons_of_mem a (hd i hi)⟩

theorem intMaxRun_ub : ∀ (l : List Int) (d : Int) (k : Nat),
    l.Pairwise (fun x y => y < x) →
    (∀ i : Nat, i < k → d - i ∈ l) → k ≤ intMaxRun l
  | [], d, k, _, hmem => by
    rcases Nat.eq_zero_or_pos k with h | h
    · simp [h]
    · have := hmem 0 h
      simp at this
  | a :: t, d, k, hp, hmem => by
    rcases Nat.eq_zero_or_pos k with hk0 | hkpos
    · omega
    · have hd0 := hmem 0 hkpos
      simp only [Nat.cast_zero, sub_zero] at hd0
      rw [intMaxRun]
      rcases List.mem_cons.mp hd0 with hda | hdt
      · subst hda
        exact le_trans (intRunLen_ub d t k hp hmem) (le_max_left _ _)
      · have hda : d < a := (List.pairwise_cons.mp hp).1 d hdt
        have hmem2 : ∀ i : Nat, i < k → d - i ∈ t := by
          intro i hi
          have := hmem i hi
          rcases List.mem_cons.mp this with h | h
          · exfalso
            have : (0 : Int) ≤ i := Int.ofNat_nonneg i
            omega
          · exact h
        exact le_trans
          (intMaxRun_ub t d k (List.pairwise_cons.mp hp).2 hmem2)
          (le_max_right _ _)

/-- Characterization of the AdvancedFeatures longest streak on inputs
without unparsable timestamps: it is the greatest length of a run of
calendar-consecutive active days, independently of the current date. -/
theorem calculateStreaks_longest_char (l : List UserProgress) (h : NoInvalid l)
    (today : Int) :
    ((calculateStreaks today l).longestStreak = 0 ∨
      ∃ d : Int, ∀ i : Nat, i < (calculateStreaks today l).longestStreak →
        ActiveOn l (d - i)) ∧
    (∀ (d : Int) (k : Nat), (∀ i : Nat, i < k → ActiveOn l (d - i)) →
      k ≤ (calculateStreaks today l).longestStreak) := by
  have hlong : (calculateStreaks today l).longestStreak =
      maxRunOf (completedDates l) := rfl
  set D := dedupKeepFirst (dateStringsOf l) with hDdef
  have hvD : ∀ x ∈ D, x ≠ DateVal.invalid :=
    dedupKF_valid _ (dateStrings_valid l h)
  set ds := daysOf D with hdsdef
  have hDmap : D = ds.map DateVal.valid := allValid_eq_map D hvD
  have hdates : completedDates l = (intSortDesc ds).map DateVal.valid := by
    unfold completedDates
    rw [← hDdef, hDmap, sortDates_map_valid]
  have hmax : (calculateStreaks today l).longestStreak = intMaxRun (intSortDesc ds) := by
    rw [hlong, hdates, maxRunOf_map_valid]
  have hndD : D.Nodup := nodup_dedupKF _
  have hnds : ds.Nodup := by
    rw [hDmap] at hndD
    exact hndD.of_map
  have hnsort : (intSortDesc ds).Nodup := ((perm_intSortDesc ds).nodup_iff).mpr hnds
  have hstrict : (intSortDesc ds).Pairwise (fun x y => y < x) :=
    strict_of_sorted_nodup _ (sorted_intSortDesc ds) hnsort
  have hmem : ∀ d : Int, d ∈ intSortDesc ds ↔ ActiveOn l d := by
    intro d
    rw [(perm_intSortDesc ds).mem_iff, hdsdef, mem_daysOf, hDdef, mem_dedupKF,
      mem_dateStrings]
  constructor
  · rcases intMaxRun_witness (intSortDesc ds) hstrict with h0 | ⟨d, hd⟩
    · exact Or.inl (by rw [hmax, h0])
    · refine Or.inr ⟨d, ?_⟩
      intro i hi
      rw [hmax] at hi
      exact (hmem _).mp (hd i hi)
  · intro d k hk
    rw [hmax]
    exact intMaxRun_ub (intSortDesc ds) d k hstrict
      (fun i hi => (hmem _).mpr (hk i hi))

/-! Lemma layer: records with a missing `completed_at`. -/

theorem dateStrings_cons_none (p : UserProgress) (l : List UserProgress)
    (hp : p.completed_at = none) :
    dateStringsOf (p :: l) = dateStringsOf l := by
  unfold dateStringsOf
  rw [List.filterMap_cons]
  by_cases hc : p.completed = true
  · simp [hc, hp]
  · simp [hc]

theorem calculateStreaks_cons_none (today : Int) (p : UserProgress)
    (l : List UserProgress) (hp : p.completed_at = none) :
    calculateStreaks today (p :: l) = calculateStreaks today l := by
  unfold calculateStreaks completedDates
  rw [dateStrings_cons_none p l hp]

theorem completedOnE_of_none (d : Int) (p : UserProgress)
    (hp : p.completed_at = none) : completedOnE d p = .ok false := by
  unfold completedOnE
  by_cases hc : p.completed = true
  · rw [if_pos hc, hp]
  · rw [if_neg hc]

theorem getQuestionsCompletedToday_cons_none (today : Int) (p : UserProgress)
    (l : List UserProgress) (hp : p.completed_at = none) :
    getQuestionsCompletedToday today (p :: l) = getQuestionsCompletedToday today l := by
  unfold getQuestionsCompletedToday
  rw [countTodayE, completedOnE_of_none today p hp]
  cases h : countTodayE today l with
  | error e => rfl
  | ok n => simp

theorem completedCount_cons (p : UserProgress) (l : List UserProgress) :
    completedCount (p :: l) = (if p.completed then 1 else 0) + completedCount l := by
  unfold completedCount
  rw [List.filter_cons]
  by_cases hc : p.completed = true
  · simp [hc, Nat.add_comm]
  · simp [hc]

theorem NoInvalid_cons (p : UserProgress) (l : List UserProgress)
    (hl : NoInvalid l) (hp : p.completed_at = none) : NoInvalid (p :: l) := by
  intro q hq hqc
  rcases List.mem_cons.mp hq with h | h
  · subst h
    rw [hp]
    simp
  · exact hl q h hqc

theorem ActiveOn_cons_none (p : UserProgress) (l : List UserProgress)
    (hp : p.completed_at = none) (d : Int) :
    ActiveOn (p :: l) d ↔ ActiveOn l d := by
  rw [ActiveOn_cons]
  constructor
  · rintro (⟨_, hd⟩ | h)
    · rw [hp] at hd
      exact absurd hd (by simp)
    · exact h
  · exact Or.inr

theorem calculateCurrentStreak_cons_none (today : Int) (p : UserProgress)
    (l : List UserProgress) (hl : NoInvalid l) (hp : p.completed_at = none) :
    calculateCurrentStreak today (p :: l) = calculateCurrentStreak today l := by
  rcases calculateCurrentStreak_char (p :: l) (NoInvalid_cons p l hl hp) today with
    ⟨n, hn, hn1, hn2⟩
  rcases calculateCurrentStreak_char l hl today with ⟨m, hm, hm1, hm2⟩
  rw [hn, hm]
  have : n = m := by
    apply runUnique (ActiveOn l) today n m
    · intro i hi
      exact (ActiveOn_cons_none p l hp _).mp (hn1 i hi)
    · exact fun h => hn2 ((ActiveOn_cons_none p l hp _).mpr h)
    · exact hm1
    · exact hm2
  rw [this]

/-! Lemma layer: the completion rate. -/

theorem calculateCompletionRate_eq_round (t c : ℤ) (ht : 0 < t) :
    calculateCompletionRate t c = roundHalfUp (100 * (c : ℚ) / (t : ℚ)) := by
  unfold calculateCompletionRate roundHalfUp jsRound
  rw [if_pos ht]
  congr 2
  ring

theorem calculateCompletionRate_nonpos (t c : ℤ) (ht : ¬0 < t) :
    calculateCompletionRate t c = 0 := by
  unfold calculateCompletionRate
  rw [if_neg ht]

theorem calculateCompletionRate_bounds (t c : ℤ) (h0 : 0 ≤ c) (hct : c ≤ t) :
    0 ≤ calculateCompletionRate t c ∧ calculateCompletionRate t c ≤ 100 := by
  unfold calculateCompletionRate jsRound
  by_cases ht : 0 < t
  · rw [if_pos ht]
    have htq : (0 : ℚ) < (t : ℚ) := by exact_mod_cast ht
    have hc0 : (0 : ℚ) ≤ (c : ℚ) := by exact_mod_cast h0
    have hdiv0 : (0 : ℚ) ≤ (c : ℚ) / (t : ℚ) := div_nonneg hc0 (le_of_lt htq)
    have hdiv1 : (c : ℚ) / (t : ℚ) ≤ 1 :=
      (div_le_one htq).mpr (by exact_mod_cast hct)
    constructor
    · apply Int.le_floor.mpr
      push_cast
      nlinarith
    · have hfl : (Int.floor ((c : ℚ) / (t : ℚ) * 100 + 1 / 2) : ℚ) ≤
          (c : ℚ) / (t : ℚ) * 100 + 1 / 2 := Int.floor_le _
      have hub : (c : ℚ) / (t : ℚ) * 100 + 1 / 2 < 101 := by nlinarith
      have : (Int.floor ((c : ℚ) / (t : ℚ) * 100 + 1 / 2) : ℚ) < 101 :=
        lt_of_le_of_lt hfl hub
      have hlt : Int.floor ((c : ℚ) / (t : ℚ) * 100 + 1 / 2) < 101 := by
        exact_mod_cast this
      omega
  · rw [if_neg ht]
    exact ⟨le_refl 0, by omega⟩

theorem length_filter_and_le {α : Type} (p q : α → Bool) (l : List α) :
    (l.filter (fun a => p a && q a)).length ≤ (l.filter p).length := by
  induction l with
  | nil => simp
  | cons a t ih =>
    rw [List.filter_cons, List.filter_cons]
    cases hp : p a <;> cases hq : q a <;> simp [hp, hq] <;> omega

/-! Lemma layer: difficulty breakdown. -/

theorem count_difficulty_partition (qs : List Question) :
    (qs.filter (fun q => decide (q.difficulty = Difficulty.Easy))).length +
      (qs.filter (fun q => decide (q.difficulty = Difficulty.Medium))).length +
      (qs.filter (fun q => decide (q.difficulty = Difficulty.Hard))).length
      = qs.length := by
  induction qs with
  | nil => rfl
  | cons q t ih =>
    rw [List.filter_cons, List.filter_cons, List.filter_cons]
    cases hq : q.difficulty <;> simp [hq] <;> omega

theorem isCompletedQ_no_record (ps : List UserProgress) (q : Question)
    (h : ∀ p ∈ ps, p.question_id ≠ q.id) : isCompletedQ ps q = false := by
  unfold isCompletedQ
  rw [List.any_eq_false]
  intro p hp
  simp [h p hp]

theorem diffCountsFor_cons_not_completed (qs : List Question)
    (ps : List UserProgress) (q : Question) (d : Difficulty)
    (h : isCompletedQ ps q = false) :
    (diffCountsFor (q :: qs) ps d).total =
      (if q.difficulty = d then 1 else 0) + (diffCountsFor qs ps d).total ∧
    (diffCountsFor (q :: qs) ps d).completed = (diffCountsFor qs ps d).completed := by
  unfold diffCountsFor
  rw [List.filter_cons, List.filter_cons]
  by_cases hd : q.difficulty = d
  · simp [hd, h, Nat.add_comm]
  · simp [hd]

/-! Lemma layer: topic breakdown fold. -/

theorem topic_count_append (pre : List Question) (q : Question) (t : String) :
    ((pre ++ [q]).filter (fun x => decide (x.topic = t))).length =
      (pre.filter (fun x => decide (x.topic = t))).length +
        (if q.topic = t then 1 else 0) := by
  rw [List.filter_append]
  by_cases hq : q.topic = t <;> simp [hq]

theorem topic_ccount_append (pre : List Question) (ps : List UserProgress)
    (q : Question) (t : String) :
    ((pre ++ [q]).filter (fun x => decide (x.topic = t) && isCompletedQ ps x)).length =
      (pre.filter (fun x => decide (x.topic = t) && isCompletedQ ps x)).length +
        (if q.topic = t then (if isCompletedQ ps q then 1 else 0) else 0) := by
  rw [List.filter_append]
  by_cases hq : q.topic = t
  · by_cases hc : isCompletedQ ps q = true <;> simp [hq, hc]
  · simp [hq]

theorem topic_count_zero (pre : List Question) (t : String)
    (h : t ∉ pre.map (fun q => q.topic)) :
    (pre.filter (fun x => decide (x.topic = t))).length = 0 := by
  rw [List.length_eq_zero, List.filter_eq_nil_iff]
  intro x hx
  simp only [decide_eq_true_eq]
  intro he
  exact h (List.mem_map.mpr ⟨x, hx, he⟩)

theorem topic_ccount_zero (pre : List Question) (ps : List UserProgress)
    (t : String) (h : t ∉ pre.map (fun q => q.topic)) :
    (pre.filter (fun x => decide (x.topic = t) && isCompletedQ ps x)).length = 0 := by
  rw [List.length_eq_zero, List.filter_eq_nil_iff]
  intro x hx
  simp only [Bool.and_eq_true, decide_eq_true_eq, not_and]
  intro he
  exact absurd (List.mem_map.mpr ⟨x, hx, he⟩) h

theorem updFirstEntry_map (ts : List String) (t : String) (c : Bool)
    (f : String → TopicEntry) (hf : ∀ s, (f s).topic = s) (hnd : ts.Nodup) :
    updFirstEntry t c (ts.map f) =
      ts.map (fun s => if s = t then bumpEntry c (f s) else f s) := by
  induction ts with
  | nil => rfl
  | cons s rest ih =>
    rw [List.nodup_cons] at hnd
    rw [List.map_cons, updFirstEntry, hf s, List.map_cons]
    by_cases hst : s = t
    · rw [if_pos hst, if_pos hst]
      congr 1
      apply List.map_congr_left
      intro x hx
      have : x ≠ t := fun he => hnd.1 (by rw [hst, ← he]; exact hx)
      rw [if_neg this]
    · rw [if_neg hst, if_neg hst, ih hnd.2]

theorem topicEntryExt (a b : TopicEntry) (h1 : a.topic = b.topic)
    (h2 : a.total = b.total) (h3 : a.completed = b.completed)
    (h4 : a.percentage = b.percentage) : a = b := by
  cases a
  cases b
  simp_all

theorem topicRaw_any (pre : List Question) (ps : List UserProgress) (s : String) :
    (topicDataSpecRaw pre ps).any (fun e => decide (e.topic = s)) =
      decide (s ∈ pre.map (fun q => q.topic)) := by
  unfold topicDataSpecRaw
  by_cases hmem : s ∈ pre.map (fun q => q.topic)
  · have h : ((dedupKeepFirst (pre.map (fun q => q.topic))).map (fun t =>
        ({ topic := t
           total := (pre.filter (fun q => decide (q.topic = t))).length
           completed := (pre.filter (fun q =>
             decide (q.topic = t) && isCompletedQ ps q)).length
           percentage := 0 } : TopicEntry))).any
          (fun e => decide (e.topic = s)) = true := by
      rw [List.any_eq_true]
      refine ⟨_, List.mem_map.mpr ⟨s, (mem_dedupKF _ s).mpr hmem, rfl⟩, by simp⟩
    rw [h]
    simp [hmem]
  · have h : ((dedupKeepFirst (pre.map (fun q => q.topic))).map (fun t =>
        ({ topic := t
           total := (pre.filter (fun q => decide (q.topic = t))).length
           completed := (pre.filter (fun q =>
             decide (q.topic = t) && isCompletedQ ps q)).length
           percentage := 0 } : TopicEntry))).any
          (fun e => decide (e.topic = s)) = false := by
      rw [List.any_eq_false]
      intro e he
      rw [List.mem_map] at he
      rcases he with ⟨t, ht, het⟩
      rw [← het]
      simp only [decide_eq_true_eq]
      intro he2
      exact hmem (he2 ▸ (mem_dedupKF _ t).mp ht)
    rw [h]
    simp [hmem]

theorem topicStep_spec (pre : List Question) (ps : List UserProgress)
    (q : Question) :
    topicStep ps (topicDataSpecRaw pre ps) q = topicDataSpecRaw (pre ++ [q]) ps := by
  unfold topicStep
  rw [topicRaw_any]
  by_cases hmem : q.topic ∈ pre.map (fun x => x.topic)
  · rw [if_pos (by simp [hmem])]
    unfold topicDataSpecRaw
    have hdedup : dedupKeepFirst ((pre ++ [q]).map (fun x => x.topic)) =
        dedupKeepFirst (pre.map (fun x => x.topic)) := by
      rw [List.map_append, List.map_singleton]
      exact dedupKF_append_mem _ _ hmem
    rw [hdedup]
    rw [updFirstEntry_map _ _ _ _ (fun s => rfl) (nodup_dedupKF _)]
    apply List.map_congr_left
    intro s hs
    by_cases hst : s = q.topic
    · rw [if_pos hst]
      have h1 := topic_count_append pre q s
      have h2 := topic_ccount_append pre ps q s
      rw [if_pos (hst.symm)] at h1 h2
      apply topicEntryExt
      · rfl
      · dsimp only [bumpEntry]
        omega
      · dsimp only [bumpEntry]
        rw [h2]
        by_cases hc : isCompletedQ ps q = true <;> simp [hc]
      · rfl
    · rw [if_neg hst]
      have h1 := topic_count_append pre q s
      have h2 := topic_ccount_append pre ps q s
      have hq : ¬q.topic = s := fun he => hst (he.symm)
      rw [if_neg hq] at h1 h2
      apply topicEntryExt
      · rfl
      · dsimp only
        omega
      · dsimp only
        omega
      · rfl
  · rw [if_neg (by simp [hmem])]
    unfold topicDataSpecRaw
    have hdedup : dedupKeepFirst ((pre ++ [q]).map (fun x => x.topic)) =
        dedupKeepFirst (pre.map (fun x => x.topic)) ++ [q.topic] := by
      rw [List.map_append, List.map_singleton]
      exact dedupKF_append_not_mem _ _ hmem
    rw [hdedup, List.map_append, List.map_singleton]
    congr 1
    · apply List.map_congr_left
      intro s hs
      have hsm : s ∈ pre.map (fun x => x.topic) := (mem_dedupKF _ s).mp hs
      have hq : ¬q.topic = s := fun he => hmem (he ▸ hsm)
      have h1 := topic_count_append pre q s
      have h2 := topic_ccount_append pre ps q s
      rw [if_neg hq] at h1 h2
      apply topicEntryExt
      · rfl
      · dsimp only
        omega
      · dsimp only
        omega
      · rfl
    · have h1 := topic_count_append pre q q.topic
      have h2 := topic_ccount_append pre ps q q.topic
      rw [if_pos rfl] at h1 h2
      rw [topic_count_zero pre q.topic hmem] at h1
      rw [topic_ccount_zero pre ps q.topic hmem] at h2
      congr 1
      apply topicEntryExt
      · rfl
      · dsimp only
        omega
      · dsimp only
        rw [h2]
        by_cases hc : isCompletedQ ps q = true <;> simp [hc]
      · rfl

theorem topicDataRaw_eq (qs : List Question) (ps : List UserProgress) :
    topicDataRaw qs ps = topicDataSpecRaw qs ps := by
  have hgen : ∀ (rest pre : List Question),
      List.foldl (topicStep ps) (topicDataSpecRaw pre ps) rest =
        topicDataSpecRaw (pre ++ rest) ps := by
    intro rest
    induction rest with
    | nil => intro pre; simp
    | cons q rest ih =>
      intro pre
      rw [List.foldl_cons, topicStep_spec pre ps q, ih (pre ++ [q])]
      congr 1
      simp
  have h0 : topicDataSpecRaw [] ps = [] := rfl
  unfold topicDataRaw
  have hq := hgen qs []
  rw [h0] at hq
  rw [hq]
  simp

theorem topicData_eq (qs : List Question) (ps : List UserProgress) :
    topicData qs ps = topicDataSpec qs ps := by
  unfold topicData topicDataSpec
  rw [topicDataRaw_eq]
  unfold topicDataSpecRaw
  rw [List.map_map]
  apply List.map_congr_left
  intro s hs
  rfl

/-! Lemma layer: filter composition and default progress records. -/

theorem isCompletedQ_append_blanks (ps blanks : List UserProgress) (q : Question)
    (hb : ∀ b ∈ blanks, b.completed = false) :
    isCompletedQ (ps ++ blanks) q = isCompletedQ ps q := by
  unfold isCompletedQ
  rw [List.any_append]
  have h : blanks.any (fun p => decide (p.question_id = q.id) && p.completed) = false := by
    rw [List.any_eq_false]
    intro b hbm
    simp [hb b hbm]
  rw [h, Bool.or_false]

theorem anyRevision_append_blanks (ps blanks : List UserProgress) (q : Question)
    (hb : ∀ b ∈ blanks, b.marked_for_revision = false) :
    (ps ++ blanks).any (fun p => decide (p.question_id = q.id) && p.marked_for_revision) =
      ps.any (fun p => decide (p.question_id = q.id) && p.marked_for_revision) := by
  rw [List.any_append]
  have h : blanks.any
      (fun p => decide (p.question_id = q.id) && p.marked_for_revision) = false := by
    rw [List.any_eq_false]
    intro b hbm
    simp [hb b hbm]
  rw [h, Bool.or_false]

theorem matchesStatus_append_blanks (ps blanks : List UserProgress) (sel : String)
    (q : Question)
    (hb : ∀ b ∈ blanks, b.completed = false ∧ b.marked_for_revision = false) :
    matchesStatus (ps ++ blanks) sel q = matchesStatus ps sel q := by
  unfold matchesStatus findProgress
  rw [List.find?_append]
  cases hf : ps.find? (fun p => decide (p.question_id = q.id)) with
  | some p => simp [Option.or]
  | none =>
    simp only [Option.or]
    cases hg : blanks.find? (fun p => decide (p.question_id = q.id)) with
    | none => rfl
    | some b =>
      have hbb := hb b (List.mem_of_find?_eq_some hg)
      by_cases h1 : sel = "completed"
      · simp [h1, hbb.1]
      · by_cases h2 : sel = "pending"
        · simp [h1, h2, hbb.1]
        · by_cases h3 : sel = "revision"
          · simp [h1, h2, h3, hbb.2]
          · simp [h1, h2, h3]

theorem applyFilters_append_blanks (qs : List Question)
    (ps blanks : List UserProgress) (spec : FilterSpec)
    (hb : ∀ b ∈ blanks, b.completed = false ∧ b.marked_for_revision = false) :
    applyFilters qs (ps ++ blanks) spec = applyFilters qs ps spec := by
  unfold applyFilters
  apply List.filter_congr
  intro q _
  rw [matchesStatus_append_blanks ps blanks spec.status q hb]

theorem filterQuestionsByStatus_append_blanks (qs : List Question)
    (ps blanks : List UserProgress) (sel : String)
    (hb : ∀ b ∈ blanks, b.completed = false ∧ b.marked_for_revision = false) :
    filterQuestionsByStatus qs (ps ++ blanks) sel =
      filterQuestionsByStatus qs ps sel := by
  unfold filterQuestionsByStatus
  by_cases h1 : sel = "completed"
  · rw [if_pos h1, if_pos h1]
    apply List.filter_congr
    intro q _
    rw [isCompletedQ_append_blanks ps blanks q (fun b hbm => (hb b hbm).1)]
  · rw [if_neg h1, if_neg h1]
    by_cases h2 : sel = "pending"
    · rw [if_pos h2, if_pos h2]
      apply List.filter_congr
      intro q _
      rw [isCompletedQ_append_blanks ps blanks q (fun b hbm => (hb b hbm).1)]
    · rw [if_neg h2, if_neg h2]
      by_cases h3 : sel = "revision"
      · rw [if_pos h3, if_pos h3]
        apply List.filter_congr
        intro q _
        rw [anyRevision_append_blanks ps blanks q (fun b hbm => (hb b hbm).2)]
      · rw [if_neg h3, if_neg h3]

theorem seq_status_then_difficulty (qs : List Question) (ps : List UserProgress) :
    filterQuestionsByDifficulty (filterQuestionsByStatus qs ps "completed") "Hard" =
      qs.filter (fun q =>
        isCompletedQ ps q && decide (difficultyToString q.difficulty = "Hard")) := by
  unfold filterQuestionsByStatus filterQuestionsByDifficulty
  rw [if_pos rfl, if_neg (by decide)]
  rw [List.filter_filter]
  apply List.filter_congr
  intro q _
  exact Bool.and_comm _ _

theorem seq_difficulty_then_status (qs : List Question) (ps : List UserProgress) :
    filterQuestionsByStatus (filterQuestionsByDifficulty qs "Hard") ps "completed" =
      qs.filter (fun q =>
        isCompletedQ ps q && decide (difficultyToString q.difficulty = "Hard")) := by
  unfold filterQuestionsByStatus filterQuestionsByDifficulty
  rw [if_pos rfl, if_neg (by decide)]
  rw [List.filter_filter]

/-! Claim theorems. -/

/-- C1 counterexample: an input whose only activity is yesterday (day 199,
with today = 200).  The claim says the current-streak computation then
returns a nonzero streak, but the utils `calculateCurrentStreak` — one of
the two cited implementations — returns 0, because it anchors only at
today. -/
theorem C1_cex :
    ActiveOn [mkDone (some (DateVal.valid 199))] (200 - 1) ∧
    ¬ActiveOn [mkDone (some (DateVal.valid 199))] 200 ∧
    calculateCurrentStreak 200 [mkDone (some (DateVal.valid 199))] = .ok 0 :=
  ⟨by decide, by decide, rfl⟩

/-- C1 (amended): the AdvancedFeatures `calculateStreaks` current streak
is 0 when neither today nor yesterday is active, and otherwise the
(nonzero) length of the contiguous run of active days counted backward
from the anchor (today if active, else yesterday).  The utils
`calculateCurrentStreak` instead always counts backward from today: on
inputs without unparsable timestamps it returns the length of the
contiguous active run anchored at today, hence 0 whenever today is
inactive, even if yesterday and earlier days are active. -/
theorem C1_theorem (today : Int) (l : List UserProgress) :
    ((¬ActiveOn l today ∧ ¬ActiveOn l (today - 1)) →
      (calculateStreaks today l).currentStreak = 0) ∧
    ((ActiveOn l today ∨ ActiveOn l (today - 1)) →
      (∀ i : Nat, i < (calculateStreaks today l).currentStreak →
        ActiveOn l ((if ActiveOn l today then today else today - 1) - i)) ∧
      ¬ActiveOn l ((if ActiveOn l today then today else today - 1) -
        ((calculateStreaks today l).currentStreak : Int)) ∧
      0 < (calculateStreaks today l).currentStreak) ∧
    (NoInvalid l →
      ∃ n, calculateCurrentStreak today l = .ok n ∧
        (∀ i : Nat, i < n → ActiveOn l (today - i)) ∧
        ¬ActiveOn l (today - (n : Int))) :=
  ⟨(calculateStreaks_current_char today l).1,
    (calculateStreaks_current_char today l).2,
    fun h => calculateCurrentStreak_char l h today⟩

/-- C1 witness: the theorem instantiated at today = 100 with a single
completion yesterday (day 99). -/
theorem C1_witness :
    (ActiveOn [mkDone (some (DateVal.valid 99))] 100 ∨
      ActiveOn [mkDone (some (DateVal.valid 99))] (100 - 1)) ∧
    NoInvalid [mkDone (some (DateVal.valid 99))] ∧
    ((∀ i : Nat, i < (calculateStreaks 100 [mkDone (some (DateVal.valid 99))]).currentStreak →
      ActiveOn [mkDone (some (DateVal.valid 99))]
        ((if ActiveOn [mkDone (some (DateVal.valid 99))] 100 then 100 else 100 - 1) - i)) ∧
      ¬ActiveOn [mkDone (some (DateVal.valid 99))]
        ((if ActiveOn [mkDone (some (DateVal.valid 99))] 100 then 100 else 100 - 1) -
          ((calculateStreaks 100 [mkDone (some (DateVal.valid 99))]).currentStreak : Int)) ∧
      0 < (calculateStreaks 100 [mkDone (some (DateVal.valid 99))]).currentStreak) ∧
    (∃ n, calculateCurrentStreak 100 [mkDone (some (DateVal.valid 99))] = .ok n ∧
      (∀ i : Nat, i < n → ActiveOn [mkDone (some (DateVal.valid 99))] (100 - i)) ∧
      ¬ActiveOn [mkDone (some (DateVal.valid 99))] (100 - (n : Int))) :=
  ⟨by decide, by decide,
    (C1_theorem 100 [mkDone (some (DateVal.valid 99))]).2.1 (by decide),
    (C1_theorem 100 [mkDone (some (DateVal.valid 99))]).2.2 (by decide)⟩

/-- C2 counterexample: a single completed record with a present but
unparsable `completed_at`.  It contributes no activity date at all (the
day-number list is empty), yet the longest-streak loop counts the
`Invalid Date` entry as a run of length 1, so the result is 1 instead of
the 0 the claim requires for every list of records. -/
theorem C2_cex :
    daysOf (dateStringsOf [mkDone (some DateVal.invalid)]) = [] ∧
    (calculateStreaks 0 [mkDone (some DateVal.invalid)]).longestStreak = 1 :=
  ⟨rfl, by decide⟩

/-- C2 (amended): on every list whose completed records carry parsable
`completed_at` values, the longest streak is the length of the longest
run of calendar-consecutive distinct activity dates (some day anchors a
run of that length, and no run is longer), computed independently of the
current date; activity on three consecutive days far in the past plus a
single activity today yields longestStreak 3 and currentStreak 1.  A
record with a present unparsable timestamp adds a spurious run of
length 1. -/
theorem C2_theorem :
    (∀ (today : Int) (l : List UserProgress), NoInvalid l →
      ((calculateStreaks today l).longestStreak = 0 ∨
        ∃ d : Int, ∀ i : Nat, i < (calculateStreaks today l).longestStreak →
          ActiveOn l (d - i)) ∧
      (∀ (d : Int) (k : Nat), (∀ i : Nat, i < k → ActiveOn l (d - i)) →
        k ≤ (calculateStreaks today l).longestStreak)) ∧
    (∀ (t t' : Int) (l : List UserProgress),
      (calculateStreaks t l).longestStreak = (calculateStreaks t' l).longestStreak) ∧
    ((calculateStreaks 100 [mkDone (some (DateVal.valid 100)),
        mkDone (some (DateVal.valid 90)), mkDone (some (DateVal.valid 89)),
        mkDone (some (DateVal.valid 88))]).longestStreak = 3 ∧
      (calculateStreaks 100 [mkDone (some (DateVal.valid 100)),
        mkDone (some (DateVal.valid 90)), mkDone (some (DateVal.valid 89)),
        mkDone (some (DateVal.valid 88))]).currentStreak = 1) :=
  ⟨fun today l h => calculateStreaks_longest_char l h today,
    fun _ _ _ => rfl,
    by decide, by decide⟩

/-- C2 witness: the amended theorem instantiated on two consecutive
activity days (7 and 6). -/
theorem C2_witness :
    NoInvalid [mkDone (some (DateVal.valid 7)), mkDone (some (DateVal.valid 6))] ∧
    (((calculateStreaks 0 [mkDone (some (DateVal.valid 7)),
        mkDone (some (DateVal.valid 6))]).longestStreak = 0 ∨
      ∃ d : Int, ∀ i : Nat,
        i < (calculateStreaks 0 [mkDone (some (DateVal.valid 7)),
          mkDone (some (DateVal.valid 6))]).longestStreak →
        ActiveOn [mkDone (some (DateVal.valid 7)), mkDone (some (DateVal.valid 6))] (d - i)) ∧
    (∀ (d : Int) (k : Nat),
      (∀ i : Nat, i < k →
        ActiveOn [mkDone (some (DateVal.valid 7)), mkDone (some (DateVal.valid 6))] (d - i)) →
      k ≤ (calculateStreaks 0 [mkDone (some (DateVal.valid 7)),
        mkDone (some (DateVal.valid 6))]).longestStreak)) :=
  ⟨by decide,
    C2_theorem.1 0 [mkDone (some (DateVal.valid 7)), mkDone (some (DateVal.valid 6))]
      (by decide)⟩

/-- C3 counterexample: a completed record with a present but unparsable
`completed_at` string.  The claim says every date-based aggregation
excludes it without throwing, but both utils aggregations throw
(`toISOString` on an invalid date raises), modelled by the error
result. -/
theorem C3_cex :
    calculateCurrentStreak 100 [mkDone (some DateVal.invalid)] = .error () ∧
    getQuestionsCompletedToday 100 [mkDone (some DateVal.invalid)] = .error () ∧
    completedCount [mkDone (some DateVal.invalid)] = 1 :=
  ⟨rfl, rfl, rfl⟩

/-- C3 (amended): a record with a missing (null) `completed_at` is
excluded from every date-based aggregation without any throw, while
still counting toward the raw completed total when `completed` is true.
A present but unparsable `completed_at` on a completed record is
different: the utils `calculateCurrentStreak` and
`getQuestionsCompletedToday` throw on it, and the AdvancedFeatures
longest streak counts it as a spurious run of length 1. -/
theorem C3_theorem :
    (∀ (today : Int) (p : UserProgress) (l : List UserProgress),
      p.completed_at = none →
        calculateStreaks today (p :: l) = calculateStreaks today l ∧
        getQuestionsCompletedToday today (p :: l) =
          getQuestionsCompletedToday today l ∧
        (NoInvalid l → calculateCurrentStreak today (p :: l) =
          calculateCurrentStreak today l) ∧
        completedCount (p :: l) = (if p.completed then 1 else 0) + completedCount l) ∧
    (∀ (today : Int) (q : UserProgress) (l : List UserProgress),
      q.completed = true → q.completed_at = some DateVal.invalid →
        calculateCurrentStreak today (q :: l) = .error () ∧
        getQuestionsCompletedToday today (q :: l) = .error ()) ∧
    (calculateStreaks 0 [mkDone (some DateVal.invalid)]).longestStreak = 1 := by
  refine ⟨?_, ?_, by decide⟩
  · intro today p l hp
    exact ⟨calculateStreaks_cons_none today p l hp,
      getQuestionsCompletedToday_cons_none today p l hp,
      fun hl => calculateCurrentStreak_cons_none today p l hl hp,
      completedCount_cons p l⟩
  · intro today q l hc ha
    exact ⟨calculateCurrentStreak_error_head q l today hc ha,
      countTodayE_error_head q l today hc ha⟩

/-- C3 witness: the theorem instantiated with a completed record that
has a missing `completed_at`, in front of one ordinary record, and with
a malformed record in front of the empty list. -/
theorem C3_witness :
    (mkDone none).completed_at = none ∧
    NoInvalid [mkDone (some (DateVal.valid 5))] ∧
    (calculateStreaks 6 (mkDone none :: [mkDone (some (DateVal.valid 5))]) =
        calculateStreaks 6 [mkDone (some (DateVal.valid 5))] ∧
      getQuestionsCompletedToday 6 (mkDone none :: [mkDone (some (DateVal.valid 5))]) =
        getQuestionsCompletedToday 6 [mkDone (some (DateVal.valid 5))] ∧
      (NoInvalid [mkDone (some (DateVal.valid 5))] →
        calculateCurrentStreak 6 (mkDone none :: [mkDone (some (DateVal.valid 5))]) =
          calculateCurrentStreak 6 [mkDone (some (DateVal.valid 5))]) ∧
      completedCount (mkDone none :: [mkDone (some (DateVal.valid 5))]) =
        (if (mkDone none).completed then 1 else 0) +
          completedCount [mkDone (some (DateVal.valid 5))]) ∧
    (calculateCurrentStreak 6 (mkDone (some DateVal.invalid) :: []) = .error () ∧
      getQuestionsCompletedToday 6 (mkDone (some DateVal.invalid) :: []) = .error ()) :=
  ⟨rfl, by decide,
    C3_theorem.1 6 (mkDone none) [mkDone (some (DateVal.valid 5))] rfl,
    C3_theorem.2.1 6 (mkDone (some DateVal.invalid)) [] rfl rfl⟩

/-- C4 counterexample: the overall completion rate inlined in
ProgressStats divides the count of completed progress rows by the count
of questions; with one question and two completed rows it renders 200,
outside [0, 100], although it is an input on which the rate formula is
invoked. -/
theorem C4_cex :
    progressStatsOverallRate
      [{ id := "a", sheet_id := "s", title := "t", topic := "x", tags := [],
         difficulty := Difficulty.Easy }]
      [mkDone (some (DateVal.valid 0)), mkDone (some (DateVal.valid 0))] = 200 ∧
    ¬(progressStatsOverallRate
      [{ id := "a", sheet_id := "s", title := "t", topic := "x", tags := [],
         difficulty := Difficulty.Easy }]
      [mkDone (some (DateVal.valid 0)), mkDone (some (DateVal.valid 0))] ≤ 100) := by
  have h : progressStatsOverallRate
      [{ id := "a", sheet_id := "s", title := "t", topic := "x", tags := [],
         difficulty := Difficulty.Easy }]
      [mkDone (some (DateVal.valid 0)), mkDone (some (DateVal.valid 0))] = 200 := by
    simp [progressStatsOverallRate, completedCount, calculateCompletionRate,
      jsRound, mkDone]
    norm_num
  exact ⟨h, by rw [h]; decide⟩

/-- C4 (amended): `calculateCompletionRate(total, completed)` equals the
round-half-up of `100 * completed / total` for every positive total and
equals 0 when total is 0 (or negative); the result lies in [0, 100]
whenever `0 ≤ completed ≤ total`, which holds at the per-difficulty and
per-topic call sites because there `completed` counts a subset of the
questions counted by `total`.  The overall rate in ProgressStats counts
completed progress rows against the question total and can exceed 100
when the rows outnumber the questions. -/
theorem C4_theorem :
    (∀ t c : ℤ, 0 < t →
      calculateCompletionRate t c = roundHalfUp (100 * (c : ℚ) / (t : ℚ))) ∧
    (∀ c : ℤ, calculateCompletionRate 0 c = 0) ∧
    (∀ t c : ℤ, 0 ≤ c → c ≤ t →
      0 ≤ calculateCompletionRate t c ∧ calculateCompletionRate t c ≤ 100) ∧
    (∀ (qs : List Question) (ps : List UserProgress) (d : Difficulty),
      0 ≤ calculateCompletionRate
          (((calculateDifficultyStats qs ps).get d).total : ℤ)
          (((calculateDifficultyStats qs ps).get d).completed : ℤ) ∧
      calculateCompletionRate
          (((calculateDifficultyStats qs ps).get d).total : ℤ)
          (((calculateDifficultyStats qs ps).get d).completed : ℤ) ≤ 100) ∧
    (∀ (qs : List Question) (ps : List UserProgress),
      ∀ e ∈ topicData qs ps, 0 ≤ e.percentage ∧ e.percentage ≤ 100) := by
  refine ⟨calculateCompletionRate_eq_round, ?_, calculateCompletionRate_bounds, ?_, ?_⟩
  · intro c
    exact calculateCompletionRate_nonpos 0 c (by omega)
  · intro qs ps d
    have hle : ((calculateDifficultyStats qs ps).get d).completed ≤
        ((calculateDifficultyStats qs ps).get d).total := by
      cases d <;>
        exact length_filter_and_le _ _ qs
    exact calculateCompletionRate_bounds _ _ (by positivity) (by exact_mod_cast hle)
  · intro qs ps e he
    rw [topicData_eq] at he
    unfold topicDataSpec at he
    rw [List.mem_map] at he
    rcases he with ⟨t, _, het⟩
    have hle : (qs.filter (fun q => decide (q.topic = t) && isCompletedQ ps q)).length ≤
        (qs.filter (fun q => decide (q.topic = t))).length :=
      length_filter_and_le _ _ qs
    have hb := calculateCompletionRate_bounds
      ((qs.filter (fun q => decide (q.topic = t))).length : ℤ)
      ((qs.filter (fun q => decide (q.topic = t) && isCompletedQ ps q)).length : ℤ)
      (by positivity) (by exact_mod_cast hle)
    rw [← het]
    exact hb

/-- C4 witness: the amended theorem evaluated at total 8, completed 3
(rate 38, the round-half-up of 37.5), and at empty call-site inputs. -/
theorem C4_witness :
    (0 < (8 : ℤ) ∧ calculateCompletionRate 8 3 = roundHalfUp (100 * (3 : ℚ) / (8 : ℚ))) ∧
    ((0 : ℤ) ≤ 3 ∧ (3 : ℤ) ≤ 8 ∧
      0 ≤ calculateCompletionRate 8 3 ∧ calculateCompletionRate 8 3 ≤ 100) ∧
    calculateCompletionRate 0 5 = 0 :=
  ⟨⟨by decide, C4_theorem.1 8 3 (by decide)⟩,
    ⟨by decide, by decide,
      (C4_theorem.2.2.1 8 3 (by decide) (by decide)).1,
      (C4_theorem.2.2.1 8 3 (by decide) (by decide)).2⟩,
    C4_theorem.2.1 5⟩

/-- C5: the difficulty breakdown has exactly the fixed three categories,
their totals sum to the number of questions, and a question with no
matching UserProgress row adds one to its difficulty total while leaving
every completed count (and the other totals) unchanged. -/
theorem C5_theorem :
    (∀ (qs : List Question) (ps : List UserProgress),
      (calculateDifficultyStats qs ps).Easy.total +
        (calculateDifficultyStats qs ps).Medium.total +
        (calculateDifficultyStats qs ps).Hard.total = qs.length) ∧
    (∀ (qs : List Question) (ps : List UserProgress) (q : Question),
      (∀ p ∈ ps, p.question_id ≠ q.id) →
        ((calculateDifficultyStats (q :: qs) ps).get q.difficulty).total =
          1 + ((calculateDifficultyStats qs ps).get q.difficulty).total ∧
        (∀ d : Difficulty,
          ((calculateDifficultyStats (q :: qs) ps).get d).completed =
            ((calculateDifficultyStats qs ps).get d).completed) ∧
        (∀ d : Difficulty, d ≠ q.difficulty →
          ((calculateDifficultyStats (q :: qs) ps).get d).total =
            ((calculateDifficultyStats qs ps).get d).total)) := by
  constructor
  · intro qs ps
    exact count_difficulty_partition qs
  · intro qs ps q hno
    have hic := isCompletedQ_no_record ps q hno
    refine ⟨?_, ?_, ?_⟩
    · have h := (diffCountsFor_cons_not_completed qs ps q q.difficulty hic).1
      rw [if_pos rfl] at h
      cases hd : q.difficulty <;>
        · rw [hd] at h
          simpa [calculateDifficultyStats, DifficultyStats.get] using h
    · intro d
      have h := (diffCountsFor_cons_not_completed qs ps q d hic).2
      cases d <;> simpa [calculateDifficultyStats, DifficultyStats.get] using h
    · intro d hd
      have h := (diffCountsFor_cons_not_completed qs ps q d hic).1
      rw [if_neg (fun he => hd he.symm)] at h
      cases d <;> simpa [calculateDifficultyStats, DifficultyStats.get] using h

/-- C5 witness: the theorem instantiated with one Medium question, an
empty progress list, and a fresh Hard question in front. -/
theorem C5_witness :
    (calculateDifficultyStats [sampleQ "a" "x" Difficulty.Medium] []).Easy.total +
      (calculateDifficultyStats [sampleQ "a" "x" Difficulty.Medium] []).Medium.total +
      (calculateDifficultyStats [sampleQ "a" "x" Difficulty.Medium] []).Hard.total = 1 ∧
    (∀ p ∈ ([] : List UserProgress),
      p.question_id ≠ (sampleQ "b" "y" Difficulty.Hard).id) ∧
    ((calculateDifficultyStats
        (sampleQ "b" "y" Difficulty.Hard :: [sampleQ "a" "x" Difficulty.Medium])
        []).get (sampleQ "b" "y" Difficulty.Hard).difficulty).total =
      1 + ((calculateDifficultyStats [sampleQ "a" "x" Difficulty.Medium]
        []).get (sampleQ "b" "y" Difficulty.Hard).difficulty).total :=
  ⟨C5_theorem.1 [sampleQ "a" "x" Difficulty.Medium] [],
    by simp,
    (C5_theorem.2 [sampleQ "a" "x" Difficulty.Medium] []
      (sampleQ "b" "y" Difficulty.Hard) (by simp)).1⟩

/-- C6: the topic breakdown of ProgressCharts equals the specification
breakdown: one entry per distinct literal `Question.topic` value, in
insertion order of first encounter in the question list, each carrying
the topic count, the completed count under the shared completion test,
and the shared completion rate.  Neither function consults a Sheet
record (none is among their inputs). -/
theorem C6_theorem (qs : List Question) (ps : List UserProgress) :
    topicData qs ps = topicDataSpec qs ps :=
  topicData_eq qs ps

/-- C7: every achievement in the fixed catalog is evaluated as
`progress = min(metric, target)` and `unlocked` exactly when the metric
named by its definition reaches the target, from the current inputs
alone. -/
theorem C7_theorem (qs : List Question) (ps : List UserProgress) (ls : Nat)
    (a : Achievement) (ha : a ∈ calculateAchievements qs ps ls) :
    a.progress = min (metricValue qs ps ls a.id) a.target ∧
      (a.unlocked = true ↔ a.target ≤ metricValue qs ps ls a.id) := by
  fin_cases ha <;>
    exact ⟨rfl, by simp [metricValue]⟩

/-- C7 witness: the First Steps achievement on one completed record. -/
theorem C7_witness :
    ({ id := "1", title := "First Steps",
       description := "Complete your first question",
       unlocked := true, progress := 1, target := 1,
       category := "completion" } : Achievement) ∈
      calculateAchievements [] [mkDone (some (DateVal.valid 0))] 0 ∧
    (({ id := "1", title := "First Steps",
        description := "Complete your first question",
        unlocked := true, progress := 1, target := 1,
        category := "completion" } : Achievement).progress =
      min (metricValue [] [mkDone (some (DateVal.valid 0))] 0 "1") 1 ∧
      (({ id := "1", title := "First Steps",
          description := "Complete your first question",
          unlocked := true, progress := 1, target := 1,
          category := "completion" } : Achievement).unlocked = true ↔
        1 ≤ metricValue [] [mkDone (some (DateVal.valid 0))] 0 "1")) :=
  ⟨by decide,
    C7_theorem [] [mkDone (some (DateVal.valid 0))] 0 _ (by decide)⟩

/-- C8: the SearchAndFilter pass keeps exactly the questions satisfying
the conjunction of the four predicates; filtering by status then by
difficulty (in either order) equals the single conjunctive pass; and
appending progress records with `completed = false` and
`marked_for_revision = false` never changes any filter result, so a
question without a record is treated exactly like one with such a
record. -/
theorem C8_theorem :
    (∀ (qs : List Question) (ps : List UserProgress) (spec : FilterSpec),
      applyFilters qs ps spec = qs.filter (fun q =>
        matchesSearch spec.search q && matchesDifficulty spec.difficulty q &&
          matchesTopic spec.topic q && matchesStatus ps spec.status q)) ∧
    (∀ (qs : List Question) (ps : List UserProgress),
      filterQuestionsByDifficulty (filterQuestionsByStatus qs ps "completed") "Hard" =
        qs.filter (fun q =>
          isCompletedQ ps q && decide (difficultyToString q.difficulty = "Hard")) ∧
      filterQuestionsByStatus (filterQuestionsByDifficulty qs "Hard") ps "completed" =
        qs.filter (fun q =>
          isCompletedQ ps q && decide (difficultyToString q.difficulty = "Hard"))) ∧
    (∀ (qs : List Question) (ps blanks : List UserProgress) (spec : FilterSpec),
      (∀ b ∈ blanks, b.completed = false ∧ b.marked_for_revision = false) →
        applyFilters qs (ps ++ blanks) spec = applyFilters qs ps spec ∧
        (∀ sel : String, filterQuestionsByStatus qs (ps ++ blanks) sel =
          filterQuestionsByStatus qs ps sel)) :=
  ⟨fun _ _ _ => rfl,
    fun qs ps => ⟨seq_status_then_difficulty qs ps, seq_difficulty_then_status qs ps⟩,
    fun qs ps blanks spec hb =>
      ⟨applyFilters_append_blanks qs ps blanks spec hb,
        fun sel => filterQuestionsByStatus_append_blanks qs ps blanks sel hb⟩⟩

/-- C8 witness: one Hard question, no real progress, and one blank
default record appended for it. -/
theorem C8_witness :
    (∀ b ∈ [blankRec "b"], b.completed = false ∧ b.marked_for_revision = false) ∧
    applyFilters [sampleQ "b" "y" Difficulty.Hard] ([] ++ [blankRec "b"])
        { search := "", difficulty := "all", topic := "all", status := "pending" } =
      applyFilters [sampleQ "b" "y" Difficulty.Hard] []
        { search := "", difficulty := "all", topic := "all", status := "pending" } :=
  ⟨by decide,
    (C8_theorem.2.2 [sampleQ "b" "y" Difficulty.Hard] [] [blankRec "b"]
      { search := "", difficulty := "all", topic := "all", status := "pending" }
      (by decide)).1⟩

/-- C9: every write path keeps the invariant that a completed row has a
non-null `completed_at`: toggling to completed (and the bulk complete
and service markCompleted paths) stamp the current time, toggling to
not-completed and the bulk reset clear `completed` and `completed_at`
together, and the paths that do not touch completion preserve the
invariant of the prior state. -/
theorem C9_theorem (qid : String) (prior : Option UserProgress) (now : Int)
    (t : Nat) (note : String)
    (hprior : ∀ p, prior = some p → ProgressInvariant p) :
    ProgressInvariant (rowToggleCompletion qid prior now) ∧
    (priorBool prior (fun p => p.completed) = false →
      (rowToggleCompletion qid prior now).completed = true ∧
      (rowToggleCompletion qid prior now).completed_at = some (DateVal.valid now)) ∧
    (priorBool prior (fun p => p.completed) = true →
      (rowToggleCompletion qid prior now).completed = false ∧
      (rowToggleCompletion qid prior now).completed_at = none) ∧
    ProgressInvariant (rowToggleRevision qid prior) ∧
    ProgressInvariant (rowSaveNote qid prior note) ∧
    ProgressInvariant (rowStopTimer qid prior t) ∧
    ProgressInvariant (bulkRow .complete qid prior now) ∧
    ProgressInvariant (bulkRow .revision qid prior now) ∧
    ProgressInvariant (bulkRow .reset qid prior now) ∧
    (bulkRow .complete qid prior now).completed_at = some (DateVal.valid now) ∧
    (bulkRow .reset qid prior now).completed = false ∧
    (bulkRow .reset qid prior now).completed_at = none ∧
    ProgressInvariant (rowMarkCompleted qid prior now (some t)) := by
  have hpinv : ∀ p, prior = some p → p.completed = true → p.completed_at.isSome = true :=
    fun p hp hc => hprior p hp hc
  cases prior with
  | none =>
    refine ⟨?_, ?_, ?_, ?_, ?_, ?_, ?_, ?_, ?_, rfl, rfl, rfl, ?_⟩ <;>
      simp [ProgressInvariant, rowToggleCompletion, rowToggleRevision, rowSaveNote,
        rowStopTimer, bulkRow, rowMarkCompleted, priorBool]
  | some p =>
    have hp := hpinv p rfl
    refine ⟨?_, ?_, ?_, ?_, ?_, ?_, ?_, ?_, ?_, rfl, rfl, rfl, ?_⟩ <;>
      simp [ProgressInvariant, rowToggleCompletion, rowToggleRevision, rowSaveNote,
        rowStopTimer, bulkRow, rowMarkCompleted, priorBool] <;>
      intro hc <;>
      simp [hp hc]

/-- C9 witness: the theorem on a fresh question with no prior record. -/
theorem C9_witness :
    (∀ p : UserProgress, (none : Option UserProgress) = some p → ProgressInvariant p) ∧
    ProgressInvariant (rowToggleCompletion "q" none 5) ∧
    (priorBool (none : Option UserProgress) (fun p => p.completed) = false →
      (rowToggleCompletion "q" none 5).completed = true ∧
      (rowToggleCompletion "q" none 5).completed_at = some (DateVal.valid 5)) ∧
    (bulkRow .reset "q" none 5).completed = false ∧
    (bulkRow .reset "q" none 5).completed_at = none :=
  by
  have hpr : ∀ p : UserProgress, (none : Option UserProgress) = some p →
      ProgressInvariant p := by
    intro p h
    cases h
  have H := C9_theorem "q" none 5 0 "" hpr
  exact ⟨hpr, H.1, H.2.1, H.2.2.2.2.2.2.2.2.2.2.1, H.2.2.2.2.2.2.2.2.2.2.2.1⟩

/-- C10 counterexample: with a single completion yesterday (day 299 when
today is 300), the AdvancedFeatures computation reports a current streak
of 1 while the utils computation reports 0 — the two implementations are
not equivalent. -/
theorem C10_cex :
    (calculateStreaks 300 [mkDone (some (DateVal.valid 299))]).currentStreak = 1 ∧
    calculateCurrentStreak 300 [mkDone (some (DateVal.valid 299))] = .ok 0 :=
  ⟨by decide, rfl⟩

/-- C10 (amended): on inputs without unparsable timestamps, the two
current-streak implementations agree whenever today is active or
yesterday is inactive; they differ exactly when today is inactive and
yesterday is active, where the utils version returns 0 and the
AdvancedFeatures version returns the streak ending yesterday. -/
theorem C10_theorem (today : Int) (l : List UserProgress) (h : NoInvalid l)
    (hside : ActiveOn l today ∨ ¬ActiveOn l (today - 1)) :
    calculateCurrentStreak today l = .ok ((calculateStreaks today l).currentStreak) := by
  rcases calculateCurrentStreak_char l h today with ⟨n, hn, hn1, hn2⟩
  rw [hn]
  by_cases hat : ActiveOn l today
  · have hchar := (calculateStreaks_current_char today l).2 (Or.inl hat)
    rw [if_pos hat] at hchar
    have : n = (calculateStreaks today l).currentStreak :=
      runUnique (ActiveOn l) today n _ hn1 hn2 hchar.1 hchar.2.1
    rw [this]
  · have hyest : ¬ActiveOn l (today - 1) := by tauto
    have hz : (calculateStreaks today l).currentStreak = 0 :=
      (calculateStreaks_current_char today l).1 ⟨hat, hyest⟩
    have hn0 : n = 0 := by
      by_contra hne
      have := hn1 0 (Nat.pos_of_ne_zero hne)
      simp only [Nat.cast_zero, sub_zero] at this
      exact hat this
    rw [hz, hn0]

/-- C10 witness: both implementations report streak 2 when today and
yesterday (days 50 and 49) are active. -/
theorem C10_witness :
    NoInvalid [mkDone (some (DateVal.valid 50)), mkDone (some (DateVal.valid 49))] ∧
    (ActiveOn [mkDone (some (DateVal.valid 50)), mkDone (some (DateVal.valid 49))] 50 ∨
      ¬ActiveOn [mkDone (some (DateVal.valid 50)),
        mkDone (some (DateVal.valid 49))] (50 - 1)) ∧
    calculateCurrentStreak 50
        [mkDone (some (DateVal.valid 50)), mkDone (some (DateVal.valid 49))] =
      .ok ((calculateStreaks 50 [mkDone (some (DateVal.valid 50)),
        mkDone (some (DateVal.valid 49))]).currentStreak) :=
  ⟨by decide, by decide,
    C10_theorem 50 [mkDone (some (DateVal.valid 50)), mkDone (some (DateVal.valid 49))]
      (by decide) (by decide)⟩

end Mentiby
